import Mathlib

/-!
Verification of the Groebner-basis repository (`GB` namespace, C++ headers
`rational.h`, `overflow_detector.h`, `monomial.h`, `order.h`, `polynomial.h`,
`algorithms.h`, `cyclic.h`) against its natural-language specification.

The C++ value types are embedded shallowly:

* `GB.Rational` models `GB::Rational<int64_t>` as a pair of unbounded
  integers (the claims under scrutiny assume the absence of integer
  overflow, so `OverflowDetector<int64_t>` arithmetic is plain `ℤ`
  arithmetic).
* `GB.Monomial` models `GB::Monomial<>`: a degree vector together with the
  embedded field coefficient the C++ class stores (`coefficient_`, default
  `FieldType(0)`).
* a polynomial is its `std::map` of terms, kept as a list of key/value
  pairs sorted in ascending key order by the active monomial-order
  comparator; a polynomial set is its `std::set`, kept as a list sorted in
  ascending order by `GB::Less`.
* loops without a structural termination measure (`ChainOfElementaryReductions`,
  `ChainOfReductionsOverSet`, `BuhbergerAlgorithm`, ...) take fuel; thrown
  C++ exceptions are modelled with `Except`.
-/

set_option maxHeartbeats 1000000

namespace GB

/-- Failures of the modelled code: `std::runtime_error("Monomial cannot be
divided by another")`, `std::overflow_error("Divide by zero exception")`, and
exhaustion of the fuel that models an unbounded C++ loop. -/
inductive Err where
  | notDivisible
  | divByZero
  | fuelOut
deriving DecidableEq

/-- A value of `GB::Rational<int64_t>` (`rational.h`): a numerator and a
denominator, each an `OverflowDetector<int64_t>`; modelled over `ℤ` since the
claims assume no overflow occurs. -/
structure Rational where
  num : ℤ
  den : ℤ
deriving DecidableEq

namespace Rational

/-- C++ `int` division truncates toward zero; `Int.tdiv` is its model. -/
def itdiv (a b : ℤ) : ℤ := a.tdiv b

/-- `OverflowDetector::gcd`, i.e. `std::gcd`: the nonnegative gcd. -/
def igcd (a b : ℤ) : ℤ := Int.gcd a b

/-- `OverflowDetector::lcm(lhs, rhs) = lhs / gcd(lhs, rhs) * rhs`, in exactly
that order (`overflow_detector.h`). -/
def ilcm (a b : ℤ) : ℤ := itdiv a (igcd a b) * b

/-- `Rational::Reduce_` (`rational.h` lines 210-220): make the denominator
nonnegative by flipping both signs, then divide both components by their gcd. -/
def reduce (r : Rational) : Rational :=
  let r' := if r.den < 0 then Rational.mk (-r.num) (-r.den) else r
  let g := igcd r'.num r'.den
  ⟨itdiv r'.num g, itdiv r'.den g⟩

/-- `Rational(IntegerType numerator)`: denominator 1, no reduction needed. -/
def ofInt (n : ℤ) : Rational := ⟨n, 1⟩

/-- The value `Rational(0)`. -/
def rzero : Rational := ⟨0, 1⟩

/-- The value `Rational(1)`. -/
def rone : Rational := ⟨1, 1⟩

/-- `Rational(numerator, denominator)`: throws `std::overflow_error` on a zero
denominator, otherwise stores the pair and reduces. -/
def build (n d : ℤ) : Except Err Rational :=
  if d = 0 then .error .divByZero else .ok (reduce ⟨n, d⟩)

/-- `Rational::operator+=`: bring both fractions over `lcm(den, other.den)`,
add numerators, reduce. -/
def add (a b : Rational) : Rational :=
  let l := ilcm a.den b.den
  reduce ⟨a.num * itdiv l a.den + itdiv l b.den * b.num, l⟩

/-- `Rational::operator-=`. -/
def sub (a b : Rational) : Rational :=
  let l := ilcm a.den b.den
  reduce ⟨a.num * itdiv l a.den - itdiv l b.den * b.num, l⟩

/-- `Rational::operator*=`: multiply componentwise, reduce. -/
def mul (a b : Rational) : Rational :=
  reduce ⟨a.num * b.num, a.den * b.den⟩

/-- `Rational::operator/=`: throws on a zero numerator of the divisor,
otherwise cross-multiplies and reduces. -/
def div (a b : Rational) : Except Err Rational :=
  if b.num = 0 then .error .divByZero
  else .ok (reduce ⟨a.num * b.den, a.den * b.num⟩)

/-- `Rational::operator-()`: negate the numerator; no reduction is performed. -/
def neg (a : Rational) : Rational := ⟨-a.num, a.den⟩

/-- `Rational::Invert`: throws on a zero numerator, otherwise swaps numerator
and denominator and reduces. -/
def invert (a : Rational) : Except Err Rational :=
  if a.num = 0 then .error .divByZero
  else .ok (reduce ⟨a.den, a.num⟩)

/-- `Rational::operator<`: compare numerators brought over the lcm of the
denominators. -/
def blt (a b : Rational) : Bool :=
  a.num * itdiv (ilcm a.den b.den) a.den < b.num * itdiv (ilcm a.den b.den) b.den

/-- The class invariant stated in `rational.h` and checked by
`Rational::CheckInvariants_`: positive denominator, coprime components. -/
def Inv (r : Rational) : Prop := 0 < r.den ∧ Int.gcd r.num r.den = 1

instance (r : Rational) : Decidable (Inv r) := by unfold Inv; infer_instance

/-- The rational number a `GB::Rational` value denotes. -/
def toQ (r : Rational) : ℚ := (r.num : ℚ) / (r.den : ℚ)

end Rational

/-- `GB::Monomial<>` (`monomial.h`): a degree vector (`std::vector` of
`OverflowDetector<uint64_t>`, modelled as `List ℕ`) together with the embedded
field coefficient `coefficient_`, whose default member initializer is
`FieldType(0)`. -/
structure Monomial where
  degrees : List ℕ
  coeff : Rational
deriving DecidableEq

namespace Monomial

/-- `Monomial::GetDegree`: the stored degree, or 0 past the vector's end. -/
def getDegree (m : Monomial) (i : ℕ) : ℕ := m.degrees.getD i 0

/-- The trailing-zero popping loop of `Monomial::Shrink_`. -/
def dropTrailingZeros (l : List ℕ) : List ℕ :=
  (l.reverse.dropWhile (· == 0)).reverse

/-- `Monomial::Shrink_`: wipe the degree vector entirely when the embedded
coefficient equals `FieldType(0)`, then pop trailing zero degrees. -/
def shrink (m : Monomial) : Monomial :=
  ⟨dropTrailingZeros (if m.coeff = Rational.rzero then [] else m.degrees), m.coeff⟩

/-- A default-constructed `Monomial()`: empty degrees, coefficient 0. -/
def mdefault : Monomial := ⟨[], Rational.rzero⟩

/-- The `Monomial(DegreeVector, FieldType = 1)` constructor: store and shrink. -/
def ofDegrees (ds : List ℕ) (c : Rational) : Monomial := shrink ⟨ds, c⟩

/-- `Monomial::operator*=`: resize to the longer vector, add degrees
componentwise, multiply the embedded coefficients, shrink. -/
def mul (a b : Monomial) : Monomial :=
  shrink ⟨(List.range (max a.degrees.length b.degrees.length)).map
      (fun i => a.getDegree i + b.getDegree i),
    Rational.mul a.coeff b.coeff⟩

/-- `Monomial::IsDivisibleBy` (`monomial.h` lines 98-110): false when the
divisor's embedded coefficient equals `FieldType(0)` or the divisor has more
variables; otherwise a componentwise degree comparison. -/
def isDivisibleBy (a b : Monomial) : Bool :=
  if b.coeff = Rational.rzero ∨ a.degrees.length < b.degrees.length then false
  else (List.range b.degrees.length).all fun i => b.getDegree i ≤ a.getDegree i

/-- `Monomial::operator/=` (`monomial.h` lines 112-127): throw `NotDivisible`
when the divisor has more variables; then divide the embedded coefficients
(which throws `Divide by zero` on a zero divisor coefficient); then subtract
degrees componentwise, throwing `NotDivisible` when one would go negative;
finally shrink. -/
def div (a b : Monomial) : Except Err Monomial :=
  if a.degrees.length < b.degrees.length then .error .notDivisible
  else
    match Rational.div a.coeff b.coeff with
    | .error e => .error e
    | .ok c =>
      if (List.range b.degrees.length).all (fun i => b.getDegree i ≤ a.getDegree i) then
        .ok (shrink ⟨(List.range a.degrees.length).map
            (fun i => a.getDegree i - b.getDegree i), c⟩)
      else .error .notDivisible

/-- `GB::Lcm` (`algorithms.h` lines 10-16): componentwise maximum, packed by the
`Monomial(DegreeVector)` constructor (embedded coefficient 1, shrunk). -/
def mlcm (a b : Monomial) : Monomial :=
  ofDegrees ((List.range (max a.degrees.length b.degrees.length)).map
    (fun i => max (a.getDegree i) (b.getDegree i))) Rational.rone

/-- Modelled from the spec: `Monomial::TotalDegree` is absent from this draft of
`monomial.h` though `order.h` calls it; the spec defines it as the sum of all
exponents. -/
def totalDegree (m : Monomial) : ℕ := m.degrees.sum

/-- The shrink invariant of `monomial.h`: no trailing zero degree, and an
embedded zero coefficient forces an empty degree vector. -/
def WF (m : Monomial) : Prop :=
  m.degrees.getLastD 1 ≠ 0 ∧ (m.coeff = Rational.rzero → m.degrees = [])

instance (m : Monomial) : Decidable (WF m) := by unfold WF; infer_instance

end Monomial

/-- `std::lexicographical_compare` / the comparison of two `std::vector`s or two
`std::map` sequences: elementwise by `lt`, a strict prefix being smaller. -/
def listLtBy (lt : α → α → Bool) : List α → List α → Bool
  | [], [] => false
  | [], _ :: _ => true
  | _ :: _, [] => false
  | a :: as, b :: bs => if lt a b then true else if lt b a then false else listLtBy lt as bs

/-- Comparison of two degree vectors, `lhs.GetDegrees() < rhs.GetDegrees()`. -/
def lexLtN (a b : List ℕ) : Bool := listLtBy (fun x y : ℕ => decide (x < y)) a b

/-- `GB::LexicographicalOrder` (`order.h`). -/
def lexOrd (a b : Monomial) : Bool := lexLtN a.degrees b.degrees

/-- `GB::ReverseLexicographicalOrder` (`order.h` lines 13-17). -/
def revLexOrd (a b : Monomial) : Bool := lexLtN b.degrees a.degrees

/-- `GB::GradedLexicographicalOrder` (`order.h`); `TotalDegree` is
spec-modelled. -/
def gradedLexOrd (a b : Monomial) : Bool :=
  if a.totalDegree = b.totalDegree then lexOrd a b
  else decide (a.totalDegree < b.totalDegree)

/-- `GB::GradedReverseLexicographicalOrder` (`order.h` lines 33-45): total
degree first, ties broken by `ReverseLexicographicalOrder`; `TotalDegree` is
spec-modelled. -/
def gradedRevLexOrd (a b : Monomial) : Bool :=
  if a.totalDegree = b.totalDegree then revLexOrd a b
  else decide (a.totalDegree < b.totalDegree)

/-- Modelled from the spec: `Monomial::operator<` is absent from this draft of
`monomial.h` though `GB::Less` (via `std::pair::operator<`) needs it; the spec
defines the canonical comparator as lexicographic comparison of the shrunk
exponent vectors from index 0 upward. -/
def monoLtSpec (a b : Monomial) : Bool := lexLtN a.degrees b.degrees

/-- A `GB::Polynomial` is its `std::map<Monomial, FieldType, MonomialOrder>`,
kept as the list of its entries in ascending key order. -/
abbrev Poly := List (Monomial × Rational)

/-- `Polynomial::GetLeadingTerm`: `*begin()`, i.e. the entry under the map's
reverse iterator — the last entry in ascending order.  Dereferencing it on the
zero polynomial is undefined behaviour in C++; the model returns a junk
default there (no claim exercises that case). -/
def leadingTerm (p : Poly) : Monomial × Rational :=
  p.getLastD (Monomial.mdefault, Rational.rzero)

/-- `Polynomial::AddTerm_` (`polynomial.h` lines 224-235): `lower_bound` on the
key, merge on full `Monomial` equality (erasing a zero sum), otherwise a hinted
`insert` — which silently drops the term when an order-equivalent key with a
different embedded coefficient is already present. -/
def addTerm (ord : Monomial → Monomial → Bool) : Poly → Monomial × Rational → Poly
  | [], t => [t]
  | (k, v) :: rest, t =>
    if ord k t.1 then (k, v) :: addTerm ord rest t
    else if k = t.1 then
      if Rational.add v t.2 = Rational.rzero then rest
      else (k, Rational.add v t.2) :: rest
    else if ord t.1 k then t :: (k, v) :: rest
    else (k, v) :: rest

/-- `Polynomial::SubtractTerm_` (`polynomial.h` lines 237-249). -/
def subtractTerm (ord : Monomial → Monomial → Bool) : Poly → Monomial × Rational → Poly
  | [], t => [(t.1, Rational.neg t.2)]
  | (k, v) :: rest, t =>
    if ord k t.1 then (k, v) :: subtractTerm ord rest t
    else if k = t.1 then
      if Rational.sub v t.2 = Rational.rzero then rest
      else (k, Rational.sub v t.2) :: rest
    else if ord t.1 k then (t.1, Rational.neg t.2) :: (k, v) :: rest
    else (k, v) :: rest

/-- `Polynomial::operator+=`: add the other polynomial's terms one by one, in
the other's iteration order, which is descending (its `begin()` is the map's
`rbegin()`). -/
def polyAdd (ord : Monomial → Monomial → Bool) (p q : Poly) : Poly :=
  q.reverse.foldl (addTerm ord) p

/-- `Polynomial::operator-=`. -/
def polySub (ord : Monomial → Monomial → Bool) (p q : Poly) : Poly :=
  q.reverse.foldl (subtractTerm ord) p

/-- One product term of `Polynomial::operator*`: multiply keys (including their
embedded coefficients) and values. -/
def termMul (s t : Monomial × Rational) : Monomial × Rational :=
  (Monomial.mul s.1 t.1, Rational.mul s.2 t.2)

/-- `Polynomial::operator*` (`polynomial.h` lines 107-117): accumulate all
pairwise term products into a fresh polynomial via `AddTerm_`, iterating both
factors in their (descending) iteration order. -/
def polyMul (ord : Monomial → Monomial → Bool) (p q : Poly) : Poly :=
  p.reverse.foldl (fun acc s => q.reverse.foldl (fun acc2 t => addTerm ord acc2 (termMul s t)) acc) []

/-- The implicit `Polynomial(Monomial)` constructor (`polynomial.h` lines
26-27): a single map entry with value `1`, keeping the monomial — and its
embedded coefficient — as the key. -/
def polyOfMonomial (m : Monomial) : Poly := [(m, Rational.rone)]

/-- The explicit `Polynomial(Term)` constructor: a single entry, shrunk (a zero
value is discarded). -/
def polyOfTerm (t : Monomial × Rational) : Poly :=
  if t.2 = Rational.rzero then [] else [t]

/-- The implicit `Polynomial(FieldType)` constructor (`polynomial.h` lines
33-35): the key is a default-constructed `Monomial` — whose embedded
coefficient is 0 —, and `Shrink_` discards the entry when the value is 0. -/
def polyOfConst (c : Rational) : Poly :=
  if c = Rational.rzero then [] else [(Monomial.mdefault, c)]

/-- `GB::SPolynomial` (`algorithms.h` lines 18-29):
`L/LM(f) * f * LC(g) - L/LM(g) * g * LC(f)`, where the monomial quotients go
through the implicit `Polynomial(Monomial)` conversion and the leading
coefficients through the implicit `Polynomial(FieldType)` conversion, and where
the monomial divisions can throw. -/
def sPoly (ord : Monomial → Monomial → Bool) (f g : Poly) : Except Err Poly := do
  let l1 := leadingTerm f
  let l2 := leadingTerm g
  let lcmM := Monomial.mlcm l1.1 l2.1
  let q1 ← Monomial.div lcmM l1.1
  let q2 ← Monomial.div lcmM l2.1
  .ok (polySub ord
    (polyMul ord (polyMul ord (polyOfMonomial q1) f) (polyOfConst l2.2))
    (polyMul ord (polyMul ord (polyOfMonomial q2) g) (polyOfConst l1.2)))

/-- `GB::ElementaryReduction` (`algorithms.h` lines 31-52): `std::find_if` over
the reducible polynomial's iteration order — which is descending, from the
leading term down — for a term divisible by `LM(h)`; if found, subtract
`quotient * h` where the quotient divides both the keys (with their embedded
coefficients) and the values.  Returns `none` where the C++ returns `false`. -/
def elemRed (ord : Monomial → Monomial → Bool) (h r : Poly) :
    Except Err (Option Poly) :=
  match r.reverse.find? (fun t => Monomial.isDivisibleBy t.1 (leadingTerm h).1) with
  | none => .ok none
  | some t =>
    match Monomial.div t.1 (leadingTerm h).1 with
    | .error e => .error e
    | .ok qm =>
      match Rational.div t.2 (leadingTerm h).2 with
      | .error e => .error e
      | .ok qv => .ok (some (polySub ord r (polyMul ord (polyOfTerm (qm, qv)) h)))

/-- `GB::ChainOfElementaryReductions`: repeat `ElementaryReduction` until it
returns false, counting the reductions; fuel models the unbounded loop. -/
def chainElem (ord : Monomial → Monomial → Bool) :
    ℕ → Poly → Poly → Except Err (ℕ × Poly)
  | 0, _, _ => .error .fuelOut
  | fuel + 1, h, r =>
    match elemRed ord h r with
    | .error e => .error e
    | .ok none => .ok (0, r)
    | .ok (some r') =>
      match chainElem ord fuel h r' with
      | .error e => .error e
      | .ok (c, r'') => .ok (c + 1, r'')

/-- `GB::ReductionOverSet` (`algorithms.h` lines 68-79): for each reductor of
the set, in the set's (ascending) iteration order, exhaust elementary
reductions by it; return the total count. -/
def redOverSet (ord : Monomial → Monomial → Bool) (fuel : ℕ) :
    List Poly → Poly → Except Err (ℕ × Poly)
  | [], r => .ok (0, r)
  | h :: rest, r =>
    match chainElem ord fuel h r with
    | .error e => .error e
    | .ok (c1, r1) =>
      match redOverSet ord fuel rest r1 with
      | .error e => .error e
      | .ok (c2, r2) => .ok (c1 + c2, r2)

/-- `GB::ChainOfReductionsOverSet` (`algorithms.h` lines 81-92): sweep
`ReductionOverSet` until a sweep performs no reduction. -/
def chainRedOverSet (ord : Monomial → Monomial → Bool) :
    ℕ → ℕ → List Poly → Poly → Except Err (ℕ × Poly)
  | 0, _, _, _ => .error .fuelOut
  | outer + 1, fuel, s, r =>
    match redOverSet ord fuel s r with
    | .error e => .error e
    | .ok (c, r1) =>
      if c = 0 then .ok (0, r1)
      else
        match chainRedOverSet ord outer fuel s r1 with
        | .error e => .error e
        | .ok (c2, r2) => .ok (c + c2, r2)

/-- `GB::CheckLeadingTermsCoprime`: `l1 * l2 == Lcm(l1, l2)`, full `Monomial`
equality including the embedded coefficients. -/
def checkCoprime (f g : Poly) : Bool :=
  Monomial.mul (leadingTerm f).1 (leadingTerm g).1 =
    Monomial.mlcm (leadingTerm f).1 (leadingTerm g).1

/-- `GB::CheckPair` (`algorithms.h` lines 105-123). -/
def checkPair (ord : Monomial → Monomial → Bool) (outer fuel : ℕ)
    (f g : Poly) (s : List Poly) : Except Err (Option Poly) :=
  if checkCoprime f g then .ok none
  else
    match sPoly ord f g with
    | .error e => .error e
    | .ok sp =>
      match chainRedOverSet ord outer fuel s sp with
      | .error e => .error e
      | .ok (_, sp') => if sp' = [] then .ok none else .ok (some sp')

/-- The element order of `GB::Less` on polynomials (`polynomial.h` lines
279-284): `lhs.terms_ < rhs.terms_`, i.e. `std::map::operator<`, which
lexicographically compares the entry sequences with `std::pair::operator<`,
keys first (by the spec-modelled `Monomial::operator<`), then values (by
`Rational::operator<`). -/
def pairLt (x y : Monomial × Rational) : Bool :=
  if monoLtSpec x.1 y.1 then true
  else if monoLtSpec y.1 x.1 then false
  else Rational.blt x.2 y.2

/-- `GB::Less` on polynomials. -/
def polyLess (p q : Poly) : Bool := listLtBy pairLt p q

/-- `std::set::insert`: ordered insertion dropping an element for which an
equivalent one (under `Less`) is already present. -/
def setInsert : List Poly → Poly → List Poly
  | [], p => [p]
  | q :: rest, p =>
    if polyLess q p then q :: setInsert rest p
    else if polyLess p q then p :: q :: rest
    else q :: rest

/-- Building a `PolynomialSet` from an initializer list. -/
def setOfList (l : List Poly) : List Poly := l.foldl setInsert []

/-- `std::set::merge` as used by `BuhbergerAlgorithm`: move the source's
elements into the destination, duplicates (under `Less`) staying behind and
being discarded with the source. -/
def setUnion (dst src : List Poly) : List Poly := src.foldl setInsert dst

/-- `GB::FindPairs` (`algorithms.h` lines 125-143): for each `first` of the
set, pair it with every `second` strictly before it (the inner loop breaks on
`first == second`), and collect the surviving reduced S-polynomials into a
fresh set. -/
def findPairs (ord : Monomial → Monomial → Bool) (outer fuel : ℕ)
    (s : List Poly) : Except Err (List Poly) :=
  s.foldlM
    (fun acc first =>
      (s.takeWhile (fun g => !(g = first : Bool))).foldlM
        (fun acc2 second =>
          match checkPair ord outer fuel first second s with
          | .error e => .error e
          | .ok none => .ok acc2
          | .ok (some sp) => .ok (setInsert acc2 sp))
        acc)
    []

/-- The worker loop of `GB::ReductionOverSameSet` (`algorithms.h` lines
145-163): extract the smallest element, reduce it over the remaining set and
over the accumulator of already-reduced elements, and keep it in the
accumulator unless it vanished. -/
def redSameAux (ord : Monomial → Monomial → Bool) (fuel : ℕ) :
    List Poly → List Poly → ℕ → Except Err (ℕ × List Poly)
  | [], reduced, cnt => .ok (cnt, reduced)
  | f :: rest, reduced, cnt =>
    match redOverSet ord fuel rest f with
    | .error e => .error e
    | .ok (c1, f1) =>
      match redOverSet ord fuel reduced f1 with
      | .error e => .error e
      | .ok (c2, f2) =>
        if f2 = [] then redSameAux ord fuel rest reduced (cnt + c1 + c2)
        else redSameAux ord fuel rest (setInsert reduced f2) (cnt + c1 + c2)

/-- `GB::ReductionOverSameSet`. -/
def redSame (ord : Monomial → Monomial → Bool) (fuel : ℕ) (s : List Poly) :
    Except Err (ℕ × List Poly) :=
  redSameAux ord fuel s [] 0

/-- `GB::ChainOfReductionsOverSameSet`: sweep until no reduction happens. -/
def chainRedSame (ord : Monomial → Monomial → Bool) :
    ℕ → ℕ → List Poly → Except Err (ℕ × List Poly)
  | 0, _, _ => .error .fuelOut
  | outer + 1, fuel, s =>
    match redSame ord fuel s with
    | .error e => .error e
    | .ok (c, s1) =>
      if c = 0 then .ok (0, s1)
      else
        match chainRedSame ord outer fuel s1 with
        | .error e => .error e
        | .ok (c2, s2) => .ok (c + c2, s2)

/-- `GB::NormalizeSetCoefficients` (`algorithms.h` lines 176-186): replace each
element `f` by `f * (FieldType(1) / LC(f))`, rebuilding the set; the rational
division throws on a zero leading coefficient. -/
def normalizeSet (ord : Monomial → Monomial → Bool) (s : List Poly) :
    Except Err (List Poly) :=
  s.foldlM
    (fun acc f =>
      match Rational.div Rational.rone (leadingTerm f).2 with
      | .error e => .error e
      | .ok c => .ok (setInsert acc (polyMul ord f (polyOfConst c))))
    []

/-- `GB::OptimizeSet`: inter-reduce, then normalize the leading
coefficients. -/
def optimizeSet (ord : Monomial → Monomial → Bool) (outer fuel : ℕ)
    (s : List Poly) : Except Err (List Poly) :=
  match chainRedSame ord outer fuel s with
  | .error e => .error e
  | .ok (_, s1) => normalizeSet ord s1

/-- The `while (!polynomialsToAdd.empty())` loop of `GB::BuhbergerAlgorithm`. -/
def buhbergerLoop (ord : Monomial → Monomial → Bool) (outer fuel : ℕ) :
    ℕ → List Poly → List Poly → Except Err (List Poly)
  | 0, _, _ => .error .fuelOut
  | n + 1, s, toAdd =>
    if toAdd = [] then .ok s
    else
      let s1 := setUnion s toAdd
      match findPairs ord outer fuel s1 with
      | .error e => .error e
      | .ok toAdd1 =>
        match optimizeSet ord outer fuel s1 with
        | .error e => .error e
        | .ok s2 => buhbergerLoop ord outer fuel n s2 toAdd1

/-- `GB::BuhbergerAlgorithm` (`algorithms.h` lines 194-204). -/
def buhberger (ord : Monomial → Monomial → Bool) (outer fuel n : ℕ)
    (s : List Poly) : Except Err (List Poly) :=
  match findPairs ord outer fuel s with
  | .error e => .error e
  | .ok toAdd =>
    match optimizeSet ord outer fuel s with
    | .error e => .error e
    | .ok s1 => buhbergerLoop ord outer fuel n s1 toAdd

/-- `GB::BuildCyclePolymonial` (`cyclic.h` lines 48-70) over the default
`(Rational<>, LexicographicalOrder)` instantiation: start from the monomial
`x_0 ... x_{n-1}` in an `m`-entry degree vector, then slide the window `m - 1`
times, accumulating with `operator+=`.  (Only meaningful for `1 ≤ n ≤ m`, as
called by `BuildCycleSet`.) -/
def buildCyclePoly (n m : ℕ) : Poly :=
  let temp0 := (List.range m).map (fun i => if i < n then 1 else 0)
  let f0 := polyAdd lexOrd [] (polyOfMonomial (Monomial.ofDegrees temp0 Rational.rone))
  if n = m then f0
  else
    ((List.range (m - 1)).foldl
      (fun (st : List ℕ × Poly) i =>
        let t1 := (st.1.set i 0).set ((i + n) % m) 1
        (t1, polyAdd lexOrd st.2 (polyOfMonomial (Monomial.ofDegrees t1 Rational.rone))))
      (temp0, f0)).2

/-- `GB::BuildCycleSet` (`cyclic.h` lines 72-84): for `n = 1 .. m`, insert
`BuildCyclePolymonial(n, m)`, adding the constant `FieldType(-1)` when
`n = m`. -/
def buildCycleSet (m : ℕ) : List Poly :=
  (List.range m).foldl
    (fun ans k =>
      let t := buildCyclePoly (k + 1) m
      let t := if k + 1 = m then polyAdd lexOrd t (polyOfConst (Rational.ofInt (-1))) else t
      setInsert ans t)
    []

/-- The coefficient the polynomial assigns to the monomial with (shrunk) degree
vector `d`: the sum of the map values sitting under keys with those degrees.
This reads a `Poly` as the finitely supported monomial-to-coefficient mapping
of the spec's data model, which has no embedded coefficient inside a
monomial. -/
def coeffAt (p : Poly) (d : List ℕ) : ℚ :=
  ((p.filter (fun t => t.1.degrees = d)).map (fun t => Rational.toQ t.2)).sum

/-- Inputs for claims C1 and C2, as a C++ user of `polynomial.h` would build
them: every hand-written key carries the embedded coefficient 1. -/
def mkMono (ds : List ℕ) : Monomial := ⟨ds, Rational.rone⟩

/-- The integer rational `n/1`. -/
def rq (n : ℤ) : Rational := ⟨n, 1⟩

/-- `f = x0*x1 + 2*x0 - x2` of the repository's own S-polynomial test
(`test.cpp`, `TestAlgorithms`), as its term map under Lex. -/
def c2f : Poly := [(mkMono [0, 0, 1], rq (-1)), (mkMono [1], rq 2), (mkMono [1, 1], rq 1)]

/-- `g = x0^2 + 2*x1 - x2` of the same test. -/
def c2g : Poly := [(mkMono [0, 0, 1], rq (-1)), (mkMono [0, 1], rq 2), (mkMono [2], rq 1)]

/-- The S-polynomial the claim (and the repository's own test) expects:
`2*x0^2 - x0*x2 - 2*x1^2 + x1*x2`. -/
def c2expected : Poly :=
  [(mkMono [0, 1, 1], rq 1), (mkMono [0, 2], rq (-2)),
   (mkMono [1, 0, 1], rq (-1)), (mkMono [2], rq 2)]

/-- C1 input `x0`. -/
def c1f : Poly := [(mkMono [1], rq 1)]

/-- C1 input `x1 + 1` (the constant term written as `Polynomial(Term{{0}, 1})`,
so its key is the shrunk monomial with embedded coefficient 1). -/
def c1g : Poly := [(mkMono [], rq 1), (mkMono [0, 1], rq 1)]

/-- First element of the basis `BuhbergerAlgorithm` returns on `{c1f, c1g}`:
the constant polynomial `1`, keyed by the zero-coefficient empty monomial. -/
def c1G1 : Poly := [(Monomial.mdefault, rq 1)]

/-- Second element of that basis: the constant polynomial `2`. -/
def c1G2 : Poly := [(Monomial.mdefault, rq 2)]

/-!  Helper lemmas about the reduction loops, used for claim C3. -/

/-- The reducible polynomial of the C4 counterexample: `x0 + x0^2`. -/
def c4r : Poly := [(mkMono [1], rq 1), (mkMono [2], rq 1)]

/-- The reductor of the C4 counterexample: `x0`. -/
def c4h : Poly := [(mkMono [1], rq 1)]

/-- Zero-padding a degree vector to length `n`, as in the claim's "zero-padded
forward vectors". -/
def padTo (l : List ℕ) (n : ℕ) : List ℕ := l ++ List.replicate (n - l.length) 0

/-- `std::numeric_limits<int64_t>::min()`. -/
def kMin64 : ℤ := -(2 ^ 63)

/-- `std::numeric_limits<int64_t>::max()`. -/
def kMax64 : ℤ := 2 ^ 63 - 1

/-- `OverflowDetector<int64_t>::DoesMultiplicationOverflow`
(`overflow_detector.h` lines 108-144): zero operands are safe; the `-1`
edge cases are dispatched on the sign of `offset = kMax + kMin` (both branches
translated, though `offset = -1` for two's complement); otherwise compare
against `kMax / rhs` or `kMin / rhs` split by sign, with C++ (truncating)
integer division. -/
def doesMulOverflow (lhs rhs : ℤ) : Bool :=
  if lhs = 0 ∨ rhs = 0 then false
  else if 0 < kMax64 + kMin64 ∧ rhs = -1 then lhs = kMax64
  else if 0 < kMax64 + kMin64 ∧ lhs = -1 then rhs = kMax64
  else if kMax64 + kMin64 < 0 ∧ rhs = -1 then lhs = kMin64
  else if kMax64 + kMin64 < 0 ∧ lhs = -1 then rhs = kMin64
  else if lhs < 0 then
    if rhs < 0 then lhs < Int.tdiv kMax64 rhs else lhs < Int.tdiv kMin64 rhs
  else
    if rhs < 0 then Int.tdiv kMin64 rhs < lhs else Int.tdiv kMax64 rhs < lhs

/-!  Claim C5: the cyclic-m generating set.  The spec-side polynomials are
written as coefficient functions on shrunk degree vectors, to be compared with
`coeffAt` of the built polynomials. -/

/-- The window monomial of the claim: `x_i * x_((i+1) mod m) * ... *
x_((i+n-1) mod m)` as a 0/1 exponent vector of length `m`. -/
def specWindow (i n m : ℕ) : List ℕ :=
  (List.range m).map (fun j => if ∃ k, k < n ∧ j = (i + k) % m then 1 else 0)

/-- The claim's `p_n` for `n < m`: the rotational sum of the `m` window
monomials, all coefficients 1, as a coefficient function. -/
def specCycPoly (n m : ℕ) (d : List ℕ) : ℚ :=
  ((List.range m).map
    (fun i => if Monomial.dropTrailingZeros (specWindow i n m) = d then (1 : ℚ) else 0)).sum

/-- The claim's `p_m = x_0 * x_1 * ... * x_(m-1) - 1` as a coefficient
function. -/
def specLastPoly (m : ℕ) (d : List ℕ) : ℚ :=
  (if List.replicate m 1 = d then (1 : ℚ) else 0) + (if [] = d then (-1 : ℚ) else 0)

/-- The claim's `p_n` for `1 ≤ n ≤ m`. -/
def specCyclic (n m : ℕ) : List ℕ → ℚ :=
  if n = m then specLastPoly m else specCycPoly n m

/-- The loop body of `BuildCyclePolymonial`, named for the fold induction. -/
def cycStep (n m : ℕ) (st : List ℕ × Poly) (i : ℕ) : List ℕ × Poly :=
  let t1 := (st.1.set i 0).set ((i + n) % m) 1
  (t1, polyAdd lexOrd st.2 (polyOfMonomial (Monomial.ofDegrees t1 Rational.rone)))

/-- The loop state of `BuildCyclePolymonial` after `K` iterations. -/
def cycFoldState (n m K : ℕ) : List ℕ × Poly :=
  (List.range K).foldl (cycStep n m)
    (specWindow 0 n m,
     [(⟨Monomial.dropTrailingZeros (specWindow 0 n m), Rational.rone⟩, Rational.rone)])

/-- The polynomial inserted by `BuildCycleSet` at loop index `k` (element
`n = k + 1`): the cycle polynomial, with the constant `-1` added when
`k + 1 = m`. -/
def cSetElem (m k : ℕ) : Poly :=
  if k + 1 = m then
    polyAdd lexOrd (buildCyclePoly (k + 1) m) (polyOfConst (Rational.ofInt (-1)))
  else buildCyclePoly (k + 1) m

/-- The loop body of `BuildCycleSet`, named for the fold induction. -/
def cSetStep (m : ℕ) (ans : List Poly) (k : ℕ) : List Poly :=
  setInsert ans (cSetElem m k)

/-- The state of `BuildCycleSet`'s loop after `K` iterations. -/
def cSetFoldState (m K : ℕ) : List Poly := (List.range K).foldl (cSetStep m) []

namespace Rational

theorem itdiv_eq_ediv {a b : ℤ} (h : b ∣ a) : itdiv a b = a / b :=
  Int.tdiv_eq_ediv_of_dvd h

theorem igcd_dvd_left (a b : ℤ) : igcd a b ∣ a := Int.gcd_dvd_left

theorem igcd_dvd_right (a b : ℤ) : igcd a b ∣ b := Int.gcd_dvd_right

/-- After `Reduce_` on a fraction with nonzero denominator, the invariant holds
and the denoted rational number is unchanged. -/
theorem reduce_spec (n d : ℤ) (hd : d ≠ 0) :
    Inv (reduce ⟨n, d⟩) ∧ toQ (reduce ⟨n, d⟩) = toQ ⟨n, d⟩ := by
  have main : ∀ n' d' : ℤ, 0 < d' →
      Inv (⟨itdiv n' (igcd n' d'), itdiv d' (igcd n' d')⟩ : Rational) ∧
      toQ ⟨itdiv n' (igcd n' d'), itdiv d' (igcd n' d')⟩ = toQ ⟨n', d'⟩ := by
    intro n' d' hd'
    have hgne : Int.gcd n' d' ≠ 0 := by
      simp [Int.gcd_eq_zero_iff]
      omega
    have hgnat : 0 < Int.gcd n' d' := Nat.pos_of_ne_zero hgne
    have hg0 : 0 < (igcd n' d' : ℤ) := by unfold igcd; exact_mod_cast hgnat
    have hdvdn : igcd n' d' ∣ n' := igcd_dvd_left n' d'
    have hdvdd : igcd n' d' ∣ d' := igcd_dvd_right n' d'
    have hn' : itdiv n' (igcd n' d') = n' / igcd n' d' := itdiv_eq_ediv hdvdn
    have hd'' : itdiv d' (igcd n' d') = d' / igcd n' d' := itdiv_eq_ediv hdvdd
    have hmuln : n' / igcd n' d' * igcd n' d' = n' := Int.ediv_mul_cancel hdvdn
    have hmuld : d' / igcd n' d' * igcd n' d' = d' := Int.ediv_mul_cancel hdvdd
    have hdenpos : 0 < d' / igcd n' d' := by
      have hnn : 0 ≤ d' / igcd n' d' := Int.ediv_nonneg (by omega) (by omega)
      have hne : d' / igcd n' d' ≠ 0 := by
        intro h0
        rw [h0, zero_mul] at hmuld
        omega
      omega
    refine ⟨⟨by rw [hd'']; exact hdenpos, ?_⟩, ?_⟩
    · rw [hn', hd'']
      have := Int.gcd_div_gcd_div_gcd (i := n') (j := d') hgnat
      simpa [igcd] using this
    · rw [hn', hd'']
      unfold toQ
      simp only
      rw [div_eq_div_iff]
      · have : ((n' / igcd n' d' : ℤ) : ℚ) * ((d' : ℤ) : ℚ) =
            ((n' / igcd n' d' * d' : ℤ) : ℚ) := by push_cast; ring
        rw [this]
        have : ((n' : ℤ) : ℚ) * ((d' / igcd n' d' : ℤ) : ℚ) =
            ((n' * (d' / igcd n' d') : ℤ) : ℚ) := by push_cast; ring
        rw [this]
        congr 1
        calc n' / igcd n' d' * d' = n' / igcd n' d' * (d' / igcd n' d' * igcd n' d') := by
              rw [hmuld]
          _ = n' / igcd n' d' * igcd n' d' * (d' / igcd n' d') := by ring
          _ = n' * (d' / igcd n' d') := by rw [hmuln]
      · exact_mod_cast hdenpos.ne'
      · exact_mod_cast hd'.ne'
  unfold reduce
  rcases lt_trichotomy d 0 with h | h | h
  · simp only [h, if_pos]
    have h2 := main (-n) (-d) (by omega)
    refine ⟨h2.1, h2.2.trans ?_⟩
    unfold toQ
    simp only
    push_cast
    rw [neg_div_neg_eq]
  · omega
  · have : ¬ d < 0 := by omega
    simp only [this, if_neg, if_false]
    exact main n d h

/-- The invariant forces the canonical zero representation `(0, 1)`. -/
theorem Inv.zero_canonical {r : Rational} (h : Inv r) (hz : r.num = 0) :
    r = rzero := by
  obtain ⟨hpos, hcop⟩ := h
  have : Int.gcd 0 r.den = 1 := hz ▸ hcop
  rw [Int.gcd_zero_left] at this
  have : r.den = 1 := by omega
  cases r
  simp_all [rzero]

theorem inv_rzero : Inv rzero := by constructor <;> simp [rzero]

theorem inv_rone : Inv rone := by constructor <;> simp [rone]

theorem inv_ofInt (n : ℤ) : Inv (ofInt n) := by constructor <;> simp [ofInt]

theorem toQ_rzero : toQ rzero = 0 := by simp [toQ, rzero]

theorem toQ_rone : toQ rone = 1 := by simp [toQ, rone]

theorem toQ_ofInt (n : ℤ) : toQ (ofInt n) = (n : ℚ) := by simp [toQ, ofInt]

/-- Reduced representations are unique: the denotation is injective on values
satisfying the invariant. -/
theorem toQ_inj {a b : Rational} (ha : Inv a) (hb : Inv b)
    (h : toQ a = toQ b) : a = b := by
  obtain ⟨had, hac⟩ := ha
  obtain ⟨hbd, hbc⟩ := hb
  have hadQ : ((a.den : ℤ) : ℚ) ≠ 0 := by exact_mod_cast had.ne'
  have hbdQ : ((b.den : ℤ) : ℚ) ≠ 0 := by exact_mod_cast hbd.ne'
  have hcross : a.num * b.den = b.num * a.den := by
    have : (a.num : ℚ) * (b.den : ℚ) = (b.num : ℚ) * (a.den : ℚ) := by
      rw [toQ, toQ, div_eq_div_iff hadQ hbdQ] at h
      exact_mod_cast h
    exact_mod_cast this
  have hca : IsCoprime a.den a.num :=
    (Int.gcd_eq_one_iff_coprime.mp hac).symm
  have hcb : IsCoprime b.den b.num :=
    (Int.gcd_eq_one_iff_coprime.mp hbc).symm
  have hdvd1 : a.den ∣ b.den := by
    refine hca.dvd_of_dvd_mul_left ?_
    exact ⟨b.num, by linarith [hcross]⟩
  have hdvd2 : b.den ∣ a.den := by
    refine hcb.dvd_of_dvd_mul_left ?_
    exact ⟨a.num, by linarith [hcross]⟩
  have hden : a.den = b.den := Int.dvd_antisymm (by omega) (by omega) hdvd1 hdvd2
  have hnum : a.num = b.num := by
    have := hcross
    rw [hden] at this
    exact mul_right_cancel₀ (by omega) this
  cases a; cases b; simp_all

theorem toQ_eq_zero_iff {r : Rational} (h : 0 < r.den) :
    toQ r = 0 ↔ r.num = 0 := by
  unfold toQ
  rw [div_eq_zero_iff]
  constructor
  · rintro (h1 | h1)
    · exact_mod_cast h1
    · exfalso
      have hne : ((r.den : ℤ) : ℚ) ≠ 0 := by exact_mod_cast h.ne'
      exact hne h1
  · intro h1
    left
    exact_mod_cast h1

/-- Algebra helper: the common-denominator sum used by `operator+=`. -/
theorem q_add_helper (an ad bn bd u v l : ℚ) (had : ad ≠ 0) (hbd : bd ≠ 0)
    (hu : u ≠ 0) (hv : v ≠ 0) (hl1 : l = ad * v) (hl2 : l = u * bd) :
    (an * v + u * bn) / l = an / ad + bn / bd := by
  have hl0 : l ≠ 0 := by rw [hl1]; exact mul_ne_zero had hv
  rw [div_add_div _ _ had hbd, div_eq_div_iff hl0 (mul_ne_zero had hbd)]
  calc (an * v + u * bn) * (ad * bd)
      = an * bd * (ad * v) + ad * bn * (u * bd) := by ring
    _ = an * bd * l + ad * bn * l := by rw [← hl1, ← hl2]
    _ = (an * bd + ad * bn) * l := by ring

/-- Facts about `ilcm` on positive denominators, as used by `operator+=`,
`operator-=` and `operator<`: the tdivs are exact and the lcm is positive. -/
theorem ilcm_facts (x y : ℤ) (hx : 0 < x) (hy : 0 < y) :
    0 < ilcm x y ∧
    itdiv (ilcm x y) x = y / igcd x y ∧
    itdiv (ilcm x y) y = x / igcd x y ∧
    ilcm x y = x * (y / igcd x y) ∧
    ilcm x y = x / igcd x y * y ∧
    0 < x / igcd x y ∧ 0 < y / igcd x y := by
  have hgne : Int.gcd x y ≠ 0 := by
    simp [Int.gcd_eq_zero_iff]
    omega
  have hg0 : 0 < (igcd x y : ℤ) := by
    unfold igcd
    exact_mod_cast Nat.pos_of_ne_zero hgne
  have hdx : igcd x y ∣ x := igcd_dvd_left x y
  have hdy : igcd x y ∣ y := igcd_dvd_right x y
  have hmulx : x / igcd x y * igcd x y = x := Int.ediv_mul_cancel hdx
  have hmuly : y / igcd x y * igcd x y = y := Int.ediv_mul_cancel hdy
  have hxpos : 0 < x / igcd x y := by
    have hnn : 0 ≤ x / igcd x y := Int.ediv_nonneg (by omega) (by omega)
    have hne : x / igcd x y ≠ 0 := by
      intro h0; rw [h0, zero_mul] at hmulx; omega
    omega
  have hypos : 0 < y / igcd x y := by
    have hnn : 0 ≤ y / igcd x y := Int.ediv_nonneg (by omega) (by omega)
    have hne : y / igcd x y ≠ 0 := by
      intro h0; rw [h0, zero_mul] at hmuly; omega
    omega
  have hlval : ilcm x y = x / igcd x y * y := by
    unfold ilcm
    rw [itdiv_eq_ediv hdx]
  have hlval2 : ilcm x y = x * (y / igcd x y) := by
    rw [hlval]
    calc x / igcd x y * y = x / igcd x y * (y / igcd x y * igcd x y) := by rw [hmuly]
      _ = x / igcd x y * igcd x y * (y / igcd x y) := by ring
      _ = x * (y / igcd x y) := by rw [hmulx]
  have hlpos : 0 < ilcm x y := by
    rw [hlval]
    positivity
  refine ⟨hlpos, ?_, ?_, hlval2, hlval, hxpos, hypos⟩
  · rw [hlval2, itdiv_eq_ediv ⟨y / igcd x y, rfl⟩]
    exact Int.mul_ediv_cancel_left _ (by omega)
  · rw [hlval]
    rw [show x / igcd x y * y = y * (x / igcd x y) by ring,
      itdiv_eq_ediv ⟨x / igcd x y, rfl⟩]
    exact Int.mul_ediv_cancel_left _ (by omega)

/-- `operator+=` establishes the invariant and adds the denoted rationals. -/
theorem add_spec (a b : Rational) (ha : 0 < a.den) (hb : 0 < b.den) :
    Inv (add a b) ∧ toQ (add a b) = toQ a + toQ b := by
  obtain ⟨hl, h1, h2, hv1, hv2, hu, hv⟩ := ilcm_facts a.den b.den ha hb
  unfold add
  simp only [h1, h2]
  obtain ⟨hinv, htq⟩ := reduce_spec
    (a.num * (b.den / igcd a.den b.den) + a.den / igcd a.den b.den * b.num)
    (ilcm a.den b.den) hl.ne'
  refine ⟨hinv, htq.trans ?_⟩
  unfold toQ
  simp only
  push_cast
  exact q_add_helper _ _ _ _ _ _ _
    (by exact_mod_cast ha.ne') (by exact_mod_cast hb.ne')
    (by exact_mod_cast hu.ne') (by exact_mod_cast hv.ne')
    (by exact_mod_cast congrArg (fun z : ℤ => (z : ℚ)) hv1)
    (by exact_mod_cast congrArg (fun z : ℤ => (z : ℚ)) hv2)

/-- `operator-=` establishes the invariant and subtracts the denoted
rationals. -/
theorem sub_spec (a b : Rational) (ha : 0 < a.den) (hb : 0 < b.den) :
    Inv (sub a b) ∧ toQ (sub a b) = toQ a - toQ b := by
  obtain ⟨hl, h1, h2, hv1, hv2, hu, hv⟩ := ilcm_facts a.den b.den ha hb
  unfold sub
  simp only [h1, h2]
  obtain ⟨hinv, htq⟩ := reduce_spec
    (a.num * (b.den / igcd a.den b.den) - a.den / igcd a.den b.den * b.num)
    (ilcm a.den b.den) hl.ne'
  refine ⟨hinv, htq.trans ?_⟩
  unfold toQ
  simp only
  push_cast
  have H := q_add_helper ((a.num : ℤ) : ℚ) ((a.den : ℤ) : ℚ)
    (-((b.num : ℤ) : ℚ)) ((b.den : ℤ) : ℚ)
    (((a.den / igcd a.den b.den : ℤ) : ℚ)) (((b.den / igcd a.den b.den : ℤ) : ℚ))
    (((ilcm a.den b.den : ℤ) : ℚ))
    (by exact_mod_cast ha.ne') (by exact_mod_cast hb.ne')
    (by exact_mod_cast hu.ne') (by exact_mod_cast hv.ne')
    (by exact_mod_cast congrArg (fun z : ℤ => (z : ℚ)) hv1)
    (by exact_mod_cast congrArg (fun z : ℤ => (z : ℚ)) hv2)
  rw [sub_eq_add_neg, ← mul_neg, H, neg_div, ← sub_eq_add_neg]

/-- `operator*=` establishes the invariant and multiplies the denoted
rationals. -/
theorem mul_spec (a b : Rational) (ha : a.den ≠ 0) (hb : b.den ≠ 0) :
    Inv (mul a b) ∧ toQ (mul a b) = toQ a * toQ b := by
  unfold mul
  obtain ⟨hinv, htq⟩ := reduce_spec (a.num * b.num) (a.den * b.den)
    (mul_ne_zero ha hb)
  refine ⟨hinv, htq.trans ?_⟩
  unfold toQ
  push_cast
  rw [div_mul_div_comm]

/-- `operator/=` on a divisor with nonzero numerator establishes the invariant
and divides the denoted rationals. -/
theorem div_spec (a b : Rational) (ha : a.den ≠ 0) (hb : b.den ≠ 0)
    (hbn : b.num ≠ 0) :
    ∃ c, div a b = .ok c ∧ Inv c ∧ toQ c = toQ a / toQ b := by
  unfold div
  rw [if_neg hbn]
  obtain ⟨hinv, htq⟩ := reduce_spec (a.num * b.den) (a.den * b.num)
    (mul_ne_zero ha hbn)
  refine ⟨_, rfl, hinv, htq.trans ?_⟩
  unfold toQ
  push_cast
  have h1 : ((a.den : ℤ) : ℚ) ≠ 0 := by exact_mod_cast ha
  have h2 : ((b.den : ℤ) : ℚ) ≠ 0 := by exact_mod_cast hb
  have h3 : ((b.num : ℤ) : ℚ) ≠ 0 := by exact_mod_cast hbn
  field_simp

/-- Unary minus preserves the invariant and negates the denotation (it does
not re-reduce, and does not need to). -/
theorem neg_spec (a : Rational) (ha : Inv a) :
    Inv (neg a) ∧ toQ (neg a) = -toQ a := by
  obtain ⟨h1, h2⟩ := ha
  refine ⟨⟨h1, ?_⟩, ?_⟩
  · unfold neg
    simpa [Int.neg_gcd] using h2
  · unfold toQ neg
    push_cast
    ring

/-- `Invert` on a nonzero value establishes the invariant and inverts the
denotation. -/
theorem invert_spec (a : Rational) (ha : a.den ≠ 0) (hn : a.num ≠ 0) :
    ∃ c, invert a = .ok c ∧ Inv c ∧ toQ c = (toQ a)⁻¹ := by
  unfold invert
  rw [if_neg hn]
  obtain ⟨hinv, htq⟩ := reduce_spec a.den a.num hn
  refine ⟨_, rfl, hinv, htq.trans ?_⟩
  unfold toQ
  rw [inv_div]

end Rational

theorem elemRed_ok_none {ord : Monomial → Monomial → Bool} {h r : Poly}
    (hres : elemRed ord h r = .ok none) :
    ∀ t ∈ r, Monomial.isDivisibleBy t.1 (leadingTerm h).1 = false := by
  intro t ht
  unfold elemRed at hres
  cases hfind : r.reverse.find? (fun t => Monomial.isDivisibleBy t.1 (leadingTerm h).1) with
  | none =>
    have hmem : t ∈ r.reverse := List.mem_reverse.mpr ht
    have := List.find?_eq_none.mp hfind t hmem
    simpa using this
  | some u =>
    rw [hfind] at hres
    simp only at hres
    exfalso
    cases h1 : Monomial.div u.1 (leadingTerm h).1 with
    | error e => rw [h1] at hres; simp at hres
    | ok qm =>
      rw [h1] at hres
      cases h2 : Rational.div u.2 (leadingTerm h).2 with
      | error e => rw [h2] at hres; simp at hres
      | ok qv => rw [h2] at hres; simp at hres

theorem chainElem_zero {ord : Monomial → Monomial → Bool} {fuel : ℕ} {h r r' : Poly}
    (hres : chainElem ord fuel h r = .ok (0, r')) :
    r' = r ∧ elemRed ord h r = .ok none := by
  cases fuel with
  | zero => simp [chainElem] at hres
  | succ n =>
    unfold chainElem at hres
    cases h1 : elemRed ord h r with
    | error e => rw [h1] at hres; simp at hres
    | ok o =>
      rw [h1] at hres
      cases o with
      | none =>
        simp only [Except.ok.injEq, Prod.mk.injEq, true_and] at hres
        subst hres
        exact ⟨rfl, rfl⟩
      | some r1 =>
        exfalso
        simp only at hres
        cases h2 : chainElem ord n h r1 with
        | error e => rw [h2] at hres; simp at hres
        | ok cr => obtain ⟨cc, rr⟩ := cr; rw [h2] at hres; simp at hres

theorem redOverSet_zero {ord : Monomial → Monomial → Bool} {fuel : ℕ} :
    ∀ {S : List Poly} {r r' : Poly}, redOverSet ord fuel S r = .ok (0, r') →
      r' = r ∧ ∀ h ∈ S, elemRed ord h r = .ok none := by
  intro S
  induction S with
  | nil =>
    intro r r' hres
    simp [redOverSet] at hres
    exact ⟨hres.symm, by simp⟩
  | cons h rest ih =>
    intro r r' hres
    unfold redOverSet at hres
    cases h1 : chainElem ord fuel h r with
    | error e => rw [h1] at hres; simp at hres
    | ok cr1 =>
      obtain ⟨c1, r1⟩ := cr1
      rw [h1] at hres
      simp only at hres
      cases h2 : redOverSet ord fuel rest r1 with
      | error e => rw [h2] at hres; simp at hres
      | ok cr2 =>
        obtain ⟨c2, r2⟩ := cr2
        rw [h2] at hres
        simp only [Except.ok.injEq, Prod.mk.injEq] at hres
        have hc1 : c1 = 0 := by omega
        have hc2 : c2 = 0 := by omega
        subst hc1
        subst hc2
        obtain ⟨he1, he2⟩ := chainElem_zero h1
        subst he1
        obtain ⟨hr2, hall⟩ := ih h2
        refine ⟨by rw [← hres.2, hr2], ?_⟩
        intro g hg
        rcases List.mem_cons.mp hg with hg | hg
        · rw [hg]; exact he2
        · exact hall g hg

theorem chainRedOverSet_fixpoint {ord : Monomial → Monomial → Bool} :
    ∀ {outer fuel : ℕ} {S : List Poly} {r r' : Poly} {c : ℕ},
      chainRedOverSet ord outer fuel S r = .ok (c, r') →
      redOverSet ord fuel S r' = .ok (0, r') := by
  intro outer
  induction outer with
  | zero => intro fuel S r r' c hres; simp [chainRedOverSet] at hres
  | succ n ih =>
    intro fuel S r r' c hres
    unfold chainRedOverSet at hres
    cases h1 : redOverSet ord fuel S r with
    | error e => rw [h1] at hres; simp at hres
    | ok cr =>
      obtain ⟨c0, r0⟩ := cr
      rw [h1] at hres
      simp only at hres
      by_cases hc : c0 = 0
      · subst hc
        rw [if_pos rfl] at hres
        simp only [Except.ok.injEq, Prod.mk.injEq] at hres
        have hr0 : r' = r0 := hres.2.symm
        subst hr0
        obtain ⟨heq, _⟩ := redOverSet_zero h1
        rw [heq] at h1 ⊢
        exact h1
      · rw [if_neg hc] at hres
        cases h2 : chainRedOverSet ord n fuel S r0 with
        | error e => rw [h2] at hres; simp at hres
        | ok cr2 =>
          obtain ⟨c2, r2⟩ := cr2
          rw [h2] at hres
          simp only [Except.ok.injEq, Prod.mk.injEq] at hres
          have := ih h2
          rw [hres.2] at this
          exact this

/-- C3: after a terminating `ChainOfReductionsOverSet(r, S)` over a set of
nonzero polynomials, no term of the result has a monomial divisible — in the
program's own sense, `Monomial::IsDivisibleBy` — by the leading monomial of any
element of `S`. -/
theorem c3_chain_reduce_normal_form (ord : Monomial → Monomial → Bool)
    (outer fuel : ℕ) (S : List Poly) (r : Poly)
    (hne : ∀ h ∈ S, h ≠ ([] : Poly)) (c : ℕ) (r' : Poly)
    (hrun : chainRedOverSet ord outer fuel S r = .ok (c, r')) :
    ∀ h ∈ S, ∀ t ∈ r', Monomial.isDivisibleBy t.1 (leadingTerm h).1 = false := by
  have hfix := chainRedOverSet_fixpoint hrun
  obtain ⟨_, hall⟩ := redOverSet_zero hfix
  intro h hh t ht
  exact elemRed_ok_none (hall h hh) t ht

/-- Witness for C3: reducing `x0` by the set `{x0}` terminates (in one
reduction, at the zero polynomial), and the conclusion holds there. -/
theorem c3_chain_reduce_normal_form_witness :
    ((∀ h ∈ [c1f], h ≠ ([] : Poly)) ∧
      chainRedOverSet lexOrd 5 5 [c1f] c1f = .ok (1, [])) ∧
    ∀ h ∈ [c1f], ∀ t ∈ ([] : Poly),
      Monomial.isDivisibleBy t.1 (leadingTerm h).1 = false :=
  ⟨⟨by decide, by rfl⟩,
    c3_chain_reduce_normal_form lexOrd 5 5 [c1f] c1f (by decide) 1 [] (by rfl)⟩

/-- C2 (code bug): on the repository's own test input
(`f = x0*x1 + 2*x0 - x2`, `g = x0^2 + 2*x1 - x2`, Lex order, `test.cpp`
expects `2*x0^2 - x0*x2 - 2*x1^2 + x1*x2`), `SPolynomial` returns the zero
polynomial: multiplying by a leading coefficient converts it through
`Polynomial(FieldType)`, whose key is the default monomial with embedded
coefficient 0, and `Monomial::Shrink_` then wipes every product key to that
same empty monomial, collapsing all terms into one constant that cancels. -/
theorem c2_spolynomial_collapses :
    sPoly lexOrd c2f c2g = .ok ([] : Poly) ∧ ([] : Poly) ≠ c2expected ∧
    leadingTerm c2f = (mkMono [1, 1], rq 1) ∧ leadingTerm c2g = (mkMono [2], rq 1) := by
  refine ⟨by rfl, by decide, by rfl, by rfl⟩

/-- C1 (code bug): `BuhbergerAlgorithm({x0, x1 + 1})` terminates normally and
returns the two-element set `{1, 2}` of constant polynomials (every element was
collapsed to a constant by `NormalizeSetCoefficients`, whose multiplication by
`Polynomial(FieldType)` wipes all keys); on that pair of distinct basis
elements, `SPolynomial` throws a divide-by-zero instead of producing anything
that could reduce to the zero polynomial. -/
theorem c1_buhberger_postcondition_fails :
    buhberger lexOrd 10 20 10 (setOfList [c1f, c1g]) = .ok [c1G1, c1G2] ∧
    c1G1 ≠ c1G2 ∧
    sPoly lexOrd c1G1 c1G2 = .error .divByZero := by
  refine ⟨by rfl, by decide, by rfl⟩

/-- A `find?` over a reversed list returns the last match; under a pairwise
ordering hypothesis, that match is maximal among all matches. -/
theorem find_rev_max {α : Type} (p : α → Bool) (lt : α → α → Prop) :
    ∀ (l : List α), List.Pairwise lt l → ∀ t, l.reverse.find? p = some t →
      p t = true ∧ ∀ u ∈ l, p u = true → u = t ∨ lt u t := by
  intro l
  induction l with
  | nil => intro _ t ht; simp at ht
  | cons a as ih =>
    intro hpw t ht
    rw [List.reverse_cons, List.find?_append] at ht
    cases hfind : as.reverse.find? p with
    | some t' =>
      rw [hfind] at ht
      simp only [Option.or_some] at ht
      cases ht
      obtain ⟨hpt, hmax⟩ := ih (List.Pairwise.sublist (List.sublist_cons_self a as) hpw) t hfind
      refine ⟨hpt, ?_⟩
      intro u hu hpu
      rcases List.mem_cons.mp hu with hu | hu
      · subst hu
        right
        have htmem : t ∈ as := List.mem_reverse.mp (List.mem_of_find?_eq_some hfind)
        exact (List.pairwise_cons.mp hpw).1 t htmem
      · exact hmax u hu hpu
    | none =>
      rw [hfind] at ht
      simp only [Option.none_or] at ht
      have hta : t = a ∧ p a = true := by
        cases hpa : p a with
        | true =>
          rw [List.find?_cons, hpa] at ht
          simp at ht
          exact ⟨ht.symm, rfl⟩
        | false =>
          rw [List.find?_cons, hpa] at ht
          simp at ht
      obtain ⟨hta', hpa⟩ := hta
      subst hta'
      refine ⟨hpa, ?_⟩
      intro u hu hpu
      rcases List.mem_cons.mp hu with hu | hu
      · exact Or.inl hu
      · exfalso
        exact List.find?_eq_none.mp hfind u (List.mem_reverse.mpr hu) hpu

/-- C4 counterexample: in `r = x0 + x0^2` both terms are divisible by
`LM(h) = x0`; the lowest under Lex is `x0`, and reducing it would leave
`x0^2` — but `ElementaryReduction` returns `x0`, having reduced the highest
term `x0^2` instead: `Polynomial::begin()` is the map's `rbegin()`, so the
scan is descending, not ascending as the claim states. -/
theorem c4_scan_ascending_counterexample :
    elemRed lexOrd c4h c4r = .ok (some [(mkMono [1], rq 1)]) ∧
    Monomial.isDivisibleBy (mkMono [1]) (leadingTerm c4h).1 = true ∧
    Monomial.isDivisibleBy (mkMono [2]) (leadingTerm c4h).1 = true ∧
    lexOrd (mkMono [1]) (mkMono [2]) = true ∧
    polySub lexOrd c4r (polyMul lexOrd (polyOfTerm (mkMono [], rq 1)) c4h) =
      [(mkMono [2], rq 1)] ∧
    ([(mkMono [1], rq 1)] : Poly) ≠ [(mkMono [2], rq 1)] :=
  ⟨rfl, rfl, rfl, rfl, rfl, by decide⟩

/-- C4 amended: `ElementaryReduction` scans the terms of `r` in descending
monomial order under the active order (its `begin()` is the underlying map's
`rbegin()`), so when at least one term of `r` is divisible by `LM(h)`, the
highest such term under the order is the one reduced: the found term `t` is
divisible, every other divisible term is strictly below it, and the result is
exactly `r` minus `quotient(t) * h`. -/
theorem c4_scan_is_descending (ord : Monomial → Monomial → Bool) (h r : Poly)
    (hsort : List.Pairwise (fun a b : Monomial × Rational => ord a.1 b.1 = true) r)
    (t : Monomial × Rational)
    (hfind : r.reverse.find? (fun u => Monomial.isDivisibleBy u.1 (leadingTerm h).1) = some t) :
    Monomial.isDivisibleBy t.1 (leadingTerm h).1 = true ∧
    (∀ u ∈ r, Monomial.isDivisibleBy u.1 (leadingTerm h).1 = true →
      u = t ∨ ord u.1 t.1 = true) ∧
    elemRed ord h r =
      (match Monomial.div t.1 (leadingTerm h).1 with
       | .error e => .error e
       | .ok qm =>
         match Rational.div t.2 (leadingTerm h).2 with
         | .error e => .error e
         | .ok qv => .ok (some (polySub ord r (polyMul ord (polyOfTerm (qm, qv)) h)))) := by
  obtain ⟨hpt, hmax⟩ := find_rev_max
    (fun u => Monomial.isDivisibleBy u.1 (leadingTerm h).1)
    (fun a b : Monomial × Rational => ord a.1 b.1 = true) r hsort t hfind
  refine ⟨hpt, hmax, ?_⟩
  unfold elemRed
  rw [hfind]

/-- Witness for C4's amended theorem, at the counterexample input: the found
term is `x0^2`, the highest divisible one. -/
theorem c4_scan_is_descending_witness :
    (List.Pairwise (fun a b : Monomial × Rational => lexOrd a.1 b.1 = true) c4r ∧
      c4r.reverse.find? (fun u => Monomial.isDivisibleBy u.1 (leadingTerm c4h).1) =
        some (mkMono [2], rq 1)) ∧
    (Monomial.isDivisibleBy (mkMono [2]) (leadingTerm c4h).1 = true ∧
      (∀ u ∈ c4r, Monomial.isDivisibleBy u.1 (leadingTerm c4h).1 = true →
        u = (mkMono [2], rq 1) ∨ lexOrd u.1 (mkMono [2]) = true) ∧
      elemRed lexOrd c4h c4r =
        (match Monomial.div (mkMono [2]) (leadingTerm c4h).1 with
         | .error e => .error e
         | .ok qm =>
           match Rational.div (rq 1) (leadingTerm c4h).2 with
           | .error e => .error e
           | .ok qv => .ok (some (polySub lexOrd c4r (polyMul lexOrd (polyOfTerm (qm, qv)) c4h))))) :=
  ⟨⟨by decide, by rfl⟩,
    c4_scan_is_descending lexOrd c4h c4r (by decide) (mkMono [2], rq 1) (by rfl)⟩

namespace Monomial

theorem getD_replicate_zero (k i : ℕ) : (List.replicate k (0 : ℕ)).getD i 0 = 0 := by
  induction k generalizing i with
  | zero => simp
  | succ n ih =>
    cases i with
    | zero => simp [List.replicate]
    | succ j => simpa [List.replicate] using ih j

theorem dtz_decomp (l : List ℕ) :
    l = dropTrailingZeros l ++ List.replicate (l.reverse.takeWhile (· == 0)).length 0 := by
  have h1 : l.reverse.takeWhile (· == 0) ++ l.reverse.dropWhile (· == 0) = l.reverse :=
    List.takeWhile_append_dropWhile _ _
  have h2 : l.reverse.takeWhile (· == 0) =
      List.replicate (l.reverse.takeWhile (· == 0)).length 0 := by
    apply List.eq_replicate_of_mem
    intro b hb
    have := List.mem_takeWhile_imp hb
    simpa using this
  calc l = l.reverse.reverse := (List.reverse_reverse l).symm
    _ = (l.reverse.takeWhile (· == 0) ++ l.reverse.dropWhile (· == 0)).reverse := by rw [h1]
    _ = dropTrailingZeros l ++ (l.reverse.takeWhile (· == 0)).reverse := by
        rw [List.reverse_append]; rfl
    _ = dropTrailingZeros l ++ List.replicate (l.reverse.takeWhile (· == 0)).length 0 := by
        rw [h2, List.reverse_replicate, List.length_replicate]

theorem dtz_length_le (l : List ℕ) : (dropTrailingZeros l).length ≤ l.length := by
  conv_rhs => rw [dtz_decomp l]
  simp

theorem dtz_getD (l : List ℕ) (i : ℕ) :
    (dropTrailingZeros l).getD i 0 = l.getD i 0 := by
  conv_rhs => rw [dtz_decomp l]
  rcases Nat.lt_or_ge i (dropTrailingZeros l).length with h | h
  · rw [List.getD_append _ _ _ _ h]
  · rw [List.getD_eq_default _ _ h, List.getD_append_right _ _ _ _ h, getD_replicate_zero]

theorem dropWhile_head_not {α : Type} (p : α → Bool) :
    ∀ (l : List α) (x : α) (xs : List α), l.dropWhile p = x :: xs → p x = false := by
  intro l
  induction l with
  | nil => intro x xs h; simp [List.dropWhile] at h
  | cons a as ih =>
    intro x xs h
    rw [List.dropWhile_cons] at h
    by_cases hpa : p a = true
    · rw [if_pos hpa] at h
      exact ih x xs h
    · rw [if_neg hpa] at h
      cases h
      simpa using hpa

theorem dtz_eq_self {l : List ℕ} (h : l.getLastD 1 ≠ 0) : dropTrailingZeros l = l := by
  cases hl : l.reverse with
  | nil =>
    have : l = [] := by simpa using congrArg List.reverse hl
    rw [this]
    rfl
  | cons x xs =>
    have hx : x = l.getLastD 1 := by
      have h1 : l.reverse.head? = some x := by rw [hl]; rfl
      rw [List.head?_reverse] at h1
      have : l.getLastD 1 = x := by
        rw [List.getLastD_eq_getLast?, h1]
        rfl
      omega
    have hxne : (x == 0) = false := by
      simp only [beq_eq_false_iff_ne]
      omega
    unfold dropTrailingZeros
    rw [hl, List.dropWhile_cons, hxne]
    simp only [Bool.false_eq_true, if_false]
    rw [← hl, List.reverse_reverse]

theorem dtz_noTrail (l : List ℕ) : (dropTrailingZeros l).getLastD 1 ≠ 0 := by
  cases hd : dropTrailingZeros l with
  | nil => simp
  | cons x xs =>
    have : l.reverse.dropWhile (· == 0) = (x :: xs).reverse := by
      have h0 := congrArg List.reverse hd
      unfold dropTrailingZeros at h0
      rw [List.reverse_reverse] at h0
      exact h0
    rcases hrev : (x :: xs).reverse with _ | ⟨y, ys⟩
    · simp at hrev
    · rw [hrev] at this
      have hy := dropWhile_head_not (· == 0) l.reverse y ys this
      have hylast : (x :: xs).getLastD 1 = y := by
        have h1 : (x :: xs).reverse.head? = some y := by rw [hrev]; rfl
        rw [List.head?_reverse] at h1
        rw [List.getLastD_eq_getLast?, h1]
        rfl
      rw [hylast]
      simpa using hy

theorem getD_map_range (f : ℕ → ℕ) (n i : ℕ) :
    ((List.range n).map f).getD i 0 = if i < n then f i else 0 := by
  rcases Nat.lt_or_ge i n with h | h
  · rw [if_pos h, List.getD_eq_getElem _ _ (by simpa using h)]
    simp
  · rw [if_neg (by omega)]
    exact List.getD_eq_default _ _ (by simpa using h)

theorem map_range_getD_self (l : List ℕ) :
    (List.range l.length).map (fun i => l.getD i 0) = l := by
  apply List.ext_getElem
  · simp
  · intro i h1 h2
    simp only [List.getElem_map, List.getElem_range]
    rw [List.getD_eq_getElem _ _ h2]

theorem getLastD_eq_getD (l : List ℕ) (h : l ≠ []) :
    l.getLastD 1 = l.getD (l.length - 1) 0 := by
  have hlen : 0 < l.length := List.length_pos.mpr h
  rw [List.getD_eq_getElem _ _ (by omega), List.getLastD_eq_getLast? ,
    List.getLast?_eq_getElem?]
  simp [List.getElem?_eq_getElem (by omega : l.length - 1 < l.length)]

end Monomial

/-- C7 counterexample: for the dividend `1` (empty monomial, embedded
coefficient 1) and the divisor with embedded coefficient 0, `IsDivisibleBy` is
false, yet division does not fail with `NotDivisible`: it fails with the
rational divide-by-zero error, because the variable-count check passes and
`coefficient_ /= other.coefficient_` runs first. -/
theorem c7_divisor_zero_coefficient_counterexample :
    Monomial.isDivisibleBy (mkMono []) ⟨[], Rational.rzero⟩ = false ∧
    Monomial.div (mkMono []) ⟨[], Rational.rzero⟩ = .error .divByZero ∧
    (Err.divByZero ≠ Err.notDivisible) :=
  ⟨rfl, rfl, by decide⟩

theorem isDivisibleBy_iff (a b : Monomial) :
    Monomial.isDivisibleBy a b = true ↔
      (b.coeff ≠ Rational.rzero ∧ b.degrees.length ≤ a.degrees.length ∧
        ∀ i < b.degrees.length, b.getDegree i ≤ a.getDegree i) := by
  unfold Monomial.isDivisibleBy
  by_cases h : b.coeff = Rational.rzero ∨ a.degrees.length < b.degrees.length
  · rw [if_pos h]
    constructor
    · intro h1; simp at h1
    · rintro ⟨h1, h2, _⟩
      rcases h with h | h
      · exact absurd h h1
      · omega
  · rw [if_neg h]
    push_neg at h
    rw [List.all_eq_true]
    constructor
    · intro hall
      exact ⟨h.1, by omega, fun i hi => by simpa using hall i (List.mem_range.mpr hi)⟩
    · rintro ⟨_, _, hall⟩ i hi
      simpa using hall i (List.mem_range.mp hi)

theorem c7_div_succeeds (a b : Monomial) (hia : Rational.Inv a.coeff)
    (hib : Rational.Inv b.coeff) (hwa : Monomial.WF a)
    (hdiv : Monomial.isDivisibleBy a b = true) :
    ∃ q, Monomial.div a b = .ok q ∧ Monomial.mul q b = a := by
  obtain ⟨hcb, hlen, hall⟩ := (isDivisibleBy_iff a b).mp hdiv
  have hbnum : b.coeff.num ≠ 0 := fun h0 => hcb (Rational.Inv.zero_canonical hib h0)
  have hbden : b.coeff.den ≠ 0 := hib.1.ne'
  have haden : a.coeff.den ≠ 0 := hia.1.ne'
  obtain ⟨c, hcdiv, hcinv, hctoQ⟩ := Rational.div_spec a.coeff b.coeff haden hbden hbnum
  have hdivres : Monomial.div a b = .ok (Monomial.shrink
      ⟨(List.range a.degrees.length).map (fun i => a.getDegree i - b.getDegree i), c⟩) := by
    unfold Monomial.div
    rw [if_neg (by omega), hcdiv]
    simp only
    rw [if_pos]
    rw [List.all_eq_true]
    intro i hi
    simpa using hall i (List.mem_range.mp hi)
  refine ⟨_, hdivres, ?_⟩
  have hbQ : Rational.toQ b.coeff ≠ 0 :=
    fun h0 => hbnum ((Rational.toQ_eq_zero_iff hib.1).mp h0)
  obtain ⟨hccinv, hcctoQ⟩ := Rational.mul_spec c b.coeff hcinv.1.ne' hbden
  have hccQ : Rational.toQ (Rational.mul c b.coeff) = Rational.toQ a.coeff := by
    rw [hcctoQ, hctoQ, div_mul_cancel₀ _ hbQ]
  have hcoeff : Rational.mul c b.coeff = a.coeff := Rational.toQ_inj hccinv hia hccQ
  by_cases hz : a.coeff = Rational.rzero
  · -- a is the zero monomial: everything is empty
    have hadeg : a.degrees = [] := hwa.2 hz
    have hbdeg : b.degrees = [] := by
      rw [hadeg] at hlen
      exact List.eq_nil_of_length_eq_zero (by simpa using hlen)
    have hcz : c = Rational.rzero := by
      apply Rational.Inv.zero_canonical hcinv
      rw [← Rational.toQ_eq_zero_iff hcinv.1, hctoQ, hz, Rational.toQ_rzero, zero_div]
    have ha : a = ⟨[], Rational.rzero⟩ := by
      cases a
      simp_all
    rw [ha]
    unfold Monomial.mul Monomial.shrink
    rw [hcz, hz] at hcoeff
    simp [hadeg, hbdeg, hcz, Monomial.dropTrailingZeros, hcoeff]
  · -- a has a nonzero coefficient
    have hcz : c ≠ Rational.rzero := by
      intro h0
      apply hz
      apply Rational.Inv.zero_canonical hia
      rw [← Rational.toQ_eq_zero_iff hia.1]
      have : Rational.toQ c = 0 := by rw [h0, Rational.toQ_rzero]
      rw [hctoQ] at this
      rcases div_eq_zero_iff.mp this with h1 | h1
      · exact h1
      · exact absurd h1 hbQ
    set D : List ℕ := (List.range a.degrees.length).map
      (fun i => a.getDegree i - b.getDegree i) with hD
    have hq : Monomial.shrink ⟨D, c⟩ = ⟨Monomial.dropTrailingZeros D, c⟩ := by
      unfold Monomial.shrink
      rw [if_neg hcz]
    rw [hq]
    have hDlen : D.length = a.degrees.length := by simp [hD]
    have hdtzD : (Monomial.dropTrailingZeros D).length ≤ a.degrees.length := by
      rw [← hDlen]
      exact Monomial.dtz_length_le D
    set la := a.degrees.length with hla
    set lb := b.degrees.length with hlb
    set M := max (Monomial.dropTrailingZeros D).length lb with hM
    have hMla : M ≤ la := by
      rw [hM]
      exact max_le hdtzD hlen
    have hqdeg : ∀ i, (⟨Monomial.dropTrailingZeros D, c⟩ : Monomial).getDegree i =
        if i < la then a.getDegree i - b.getDegree i else 0 := by
      intro i
      show (Monomial.dropTrailingZeros D).getD i 0 = _
      rw [Monomial.dtz_getD, hD]
      exact Monomial.getD_map_range _ _ _
    have hbi : ∀ i, lb ≤ i → b.getDegree i = 0 := by
      intro i hi
      exact List.getD_eq_default _ _ hi
    have hble : ∀ i, i < la → b.getDegree i ≤ a.getDegree i := by
      intro i hi
      rcases Nat.lt_or_ge i lb with h1 | h1
      · exact hall i h1
      · rw [hbi i h1]; omega
    have hMeq : M = la := by
      rcases Nat.lt_or_ge M la with hlt | hge
      · exfalso
        have hane : a.degrees ≠ [] := by
          intro h0
          rw [hla, h0] at hlt
          simp at hlt
        have hlast := hwa.1
        rw [Monomial.getLastD_eq_getD _ hane] at hlast
        apply hlast
        have h1 : (Monomial.dropTrailingZeros D).getD (la - 1) 0 = 0 :=
          List.getD_eq_default _ _ (by omega)
        have h2 : (Monomial.dropTrailingZeros D).getD (la - 1) 0 =
            a.getDegree (la - 1) - b.getDegree (la - 1) := by
          rw [Monomial.dtz_getD, hD, Monomial.getD_map_range, if_pos (by omega)]
        have h3 : b.getDegree (la - 1) = 0 := hbi _ (by omega)
        have h4 : a.getDegree (la - 1) = 0 := by omega
        exact h4
      · omega
    have hR : (List.range M).map
        (fun i => (⟨Monomial.dropTrailingZeros D, c⟩ : Monomial).getDegree i + b.getDegree i) =
        a.degrees := by
      rw [hMeq]
      have : ∀ i ∈ List.range la,
          (⟨Monomial.dropTrailingZeros D, c⟩ : Monomial).getDegree i + b.getDegree i =
          a.degrees.getD i 0 := by
        intro i hi
        have hila : i < la := List.mem_range.mp hi
        rw [hqdeg i, if_pos hila]
        have hsub : a.getDegree i - b.getDegree i + b.getDegree i = a.getDegree i :=
          Nat.sub_add_cancel (hble i hila)
        rw [hsub]
        rfl
      rw [List.map_congr_left this, hla]
      exact Monomial.map_range_getD_self a.degrees
    unfold Monomial.mul
    simp only
    rw [hcoeff]
    show Monomial.shrink ⟨(List.range M).map _, a.coeff⟩ = a
    rw [hR]
    unfold Monomial.shrink
    rw [if_neg hz, Monomial.dtz_eq_self hwa.1]

/-- C7 amended: division succeeds exactly when `IsDivisibleBy` holds, and the
round-trip `(a / b) * b == a` holds whenever it does; but on failure the error
is `NotDivisible` only when the divisor's embedded coefficient is nonzero — a
zero-coefficient divisor fails with the rational divide-by-zero error
instead. -/
theorem c7_division_matches_divisibility (a b : Monomial)
    (hia : Rational.Inv a.coeff) (hib : Rational.Inv b.coeff) (hwa : Monomial.WF a) :
    ((∃ q, Monomial.div a b = .ok q) ↔ Monomial.isDivisibleBy a b = true) ∧
    (Monomial.isDivisibleBy a b = false → b.coeff ≠ Rational.rzero →
      Monomial.div a b = .error .notDivisible) ∧
    (Monomial.isDivisibleBy a b = true →
      ∃ q, Monomial.div a b = .ok q ∧ Monomial.mul q b = a) := by
  refine ⟨⟨?_, ?_⟩, ?_, ?_⟩
  · rintro ⟨q, hq⟩
    unfold Monomial.div at hq
    by_cases hlen : a.degrees.length < b.degrees.length
    · rw [if_pos hlen] at hq; simp at hq
    · rw [if_neg hlen] at hq
      cases hc : Rational.div a.coeff b.coeff with
      | error e => rw [hc] at hq; simp at hq
      | ok c =>
        rw [hc] at hq
        simp only at hq
        by_cases hallb : (List.range b.degrees.length).all
            (fun i => b.getDegree i ≤ a.getDegree i) = true
        · rw [isDivisibleBy_iff]
          refine ⟨?_, by omega, ?_⟩
          · intro h0
            unfold Rational.div at hc
            rw [h0] at hc
            simp [Rational.rzero] at hc
          · intro i hi
            rw [List.all_eq_true] at hallb
            simpa using hallb i (List.mem_range.mpr hi)
        · rw [if_neg hallb] at hq; simp at hq
  · intro hdiv
    obtain ⟨q, hq, _⟩ := c7_div_succeeds a b hia hib hwa hdiv
    exact ⟨q, hq⟩
  · intro hfalse hcb
    have hbnum : b.coeff.num ≠ 0 := fun h0 => hcb (Rational.Inv.zero_canonical hib h0)
    obtain ⟨c, hc, _, _⟩ := Rational.div_spec a.coeff b.coeff hia.1.ne' hib.1.ne' hbnum
    unfold Monomial.div
    by_cases hlen : a.degrees.length < b.degrees.length
    · rw [if_pos hlen]
    · rw [if_neg hlen, hc]
      have hna : ¬ ((List.range b.degrees.length).all
          (fun i => b.getDegree i ≤ a.getDegree i) = true) := by
        intro hallb
        have hT : Monomial.isDivisibleBy a b = true := by
          rw [isDivisibleBy_iff]
          refine ⟨hcb, by omega, ?_⟩
          intro i hi
          simpa using (List.all_eq_true.mp hallb) i (List.mem_range.mpr hi)
        rw [hT] at hfalse
        simp at hfalse
      simp only
      rw [if_neg hna]
  · exact c7_div_succeeds a b hia hib hwa

/-- Witness for C7's amended theorem at the repository's own monomial-division
test values: `Monomial({1,2,3,4}) / Monomial({0,0,0,4})`. -/
theorem c7_division_matches_divisibility_witness :
    (Rational.Inv (mkMono [1, 2, 3, 4]).coeff ∧ Rational.Inv (mkMono [0, 0, 0, 4]).coeff ∧
      Monomial.WF (mkMono [1, 2, 3, 4])) ∧
    (((∃ q, Monomial.div (mkMono [1, 2, 3, 4]) (mkMono [0, 0, 0, 4]) = .ok q) ↔
        Monomial.isDivisibleBy (mkMono [1, 2, 3, 4]) (mkMono [0, 0, 0, 4]) = true) ∧
      (Monomial.isDivisibleBy (mkMono [1, 2, 3, 4]) (mkMono [0, 0, 0, 4]) = false →
        (mkMono [0, 0, 0, 4]).coeff ≠ Rational.rzero →
        Monomial.div (mkMono [1, 2, 3, 4]) (mkMono [0, 0, 0, 4]) = .error .notDivisible) ∧
      (Monomial.isDivisibleBy (mkMono [1, 2, 3, 4]) (mkMono [0, 0, 0, 4]) = true →
        ∃ q, Monomial.div (mkMono [1, 2, 3, 4]) (mkMono [0, 0, 0, 4]) = .ok q ∧
          Monomial.mul q (mkMono [0, 0, 0, 4]) = mkMono [1, 2, 3, 4])) :=
  ⟨⟨by decide, by decide, by decide⟩,
    c7_division_matches_divisibility (mkMono [1, 2, 3, 4]) (mkMono [0, 0, 0, 4])
      (by decide) (by decide) (by decide)⟩

theorem lexLtN_irrefl (l : List ℕ) : lexLtN l l = false := by
  induction l with
  | nil => rfl
  | cons a as ih =>
    unfold lexLtN listLtBy
    rw [if_neg (by simp), if_neg (by simp)]
    exact ih

theorem getLastD_ne_nil {l : List ℕ} (h : l ≠ []) (d d' : ℕ) :
    l.getLastD d = l.getLastD d' := by
  cases l with
  | nil => exact absurd rfl h
  | cons a as =>
    rw [List.getLastD_eq_getLast?, List.getLastD_eq_getLast?]
    cases hl : (a :: as).getLast? with
    | none => simp [List.getLast?_eq_getElem?] at hl
    | some x => rfl

theorem noTrail_tail {a : ℕ} {xs : List ℕ} (h : (a :: xs).getLastD 1 ≠ 0) :
    xs.getLastD 1 ≠ 0 := by
  cases hxs : xs with
  | nil => simp
  | cons b bs =>
    rw [hxs] at h
    have : (a :: b :: bs).getLastD 1 = (b :: bs).getLastD 1 := by
      rw [List.getLastD_cons]
      exact getLastD_ne_nil (by simp) a 1
    rw [this] at h
    exact h

theorem lexLtN_zeros_lt (y : List ℕ) :
    ∀ (k j : ℕ), y ≠ [] → y.getLastD 1 ≠ 0 → k = y.length + j →
      lexLtN (List.replicate k 0) (y ++ List.replicate j 0) = true := by
  induction y with
  | nil => intro k j h; exact absurd rfl h
  | cons c ys ih =>
    intro k j _ hnt hk
    have hk' : k = ys.length + j + 1 := by simp at hk; omega
    subst hk'
    rw [List.replicate_succ]
    show listLtBy (fun x y : ℕ => decide (x < y))
      (0 :: List.replicate (ys.length + j) 0) (c :: (ys ++ List.replicate j 0)) = true
    unfold listLtBy
    by_cases hc : 0 < c
    · simp [hc]
    · have hc0 : c = 0 := by omega
      subst hc0
      rw [if_neg (by simp), if_neg (by simp)]
      cases hys : ys with
      | nil =>
        rw [hys] at hnt
        simp at hnt
      | cons d ds =>
        rw [← hys]
        have hys_ne : ys ≠ [] := by rw [hys]; simp
        exact ih (ys.length + j) j hys_ne (noTrail_tail hnt) rfl

theorem lexLtN_lt_zeros (x : List ℕ) :
    ∀ (k j : ℕ), x.getLastD 1 ≠ 0 → j = x.length + k →
      lexLtN (x ++ List.replicate k 0) (List.replicate j 0) = false := by
  induction x with
  | nil =>
    intro k j _ hj
    simp only [List.length_nil, Nat.zero_add] at hj
    subst hj
    simp only [List.nil_append]
    exact lexLtN_irrefl _
  | cons a xs ih =>
    intro k j hnt hj
    have hj' : j = xs.length + k + 1 := by simp at hj; omega
    subst hj'
    rw [List.replicate_succ]
    show listLtBy (fun x y : ℕ => decide (x < y))
      (a :: (xs ++ List.replicate k 0)) (0 :: List.replicate (xs.length + k) 0) = false
    unfold listLtBy
    by_cases ha : 0 < a
    · rw [if_neg (by simp), if_pos (by simpa using ha)]
    · have ha0 : a = 0 := by omega
      subst ha0
      rw [if_neg (by simp), if_neg (by simp)]
      cases hxs : xs with
      | nil =>
        rw [hxs] at hnt
        simp at hnt
      | cons d ds =>
        rw [← hxs]
        exact ih k (xs.length + k) (noTrail_tail hnt) rfl

theorem lexLtN_pad (x : List ℕ) :
    ∀ (y : List ℕ) (k j : ℕ), x.getLastD 1 ≠ 0 → y.getLastD 1 ≠ 0 →
      x.length + k = y.length + j →
      lexLtN (x ++ List.replicate k 0) (y ++ List.replicate j 0) = lexLtN x y := by
  induction x with
  | nil =>
    intro y k j _ hy hlen
    cases y with
    | nil =>
      simp only [List.nil_append]
      simp at hlen
      subst hlen
      rw [lexLtN_irrefl]
      rfl
    | cons c ys =>
      simp only [List.nil_append]
      rw [lexLtN_zeros_lt (c :: ys) k j (by simp) hy (by simp at hlen ⊢; omega)]
      rfl
  | cons a xs ih =>
    intro y k j hx hy hlen
    cases y with
    | nil =>
      simp only [List.nil_append]
      rw [lexLtN_lt_zeros (a :: xs) k j hx (by simp at hlen ⊢; omega)]
      rfl
    | cons c ys =>
      simp only [List.cons_append]
      show listLtBy _ (a :: (xs ++ List.replicate k 0)) (c :: (ys ++ List.replicate j 0)) =
        listLtBy _ (a :: xs) (c :: ys)
      unfold listLtBy
      by_cases hac : a < c
      · simp [hac]
      · by_cases hca : c < a
        · simp [hac, hca]
        · have h1 : decide (a < c) = false := by simpa using hac
          have h2 : decide (c < a) = false := by simpa using hca
          rw [h1, h2]
          simp only [Bool.false_eq_true, if_false]
          exact ih ys k j (noTrail_tail hx) (noTrail_tail hy) (by simp at hlen; omega)

/-- C8: `GradedReverseLexicographicalOrder` compares total degrees first and
breaks ties by `ReverseLexicographicalOrder`, i.e. by asking whether `b`'s
exponent vector is lexicographically smaller than `a`'s from index 0 on the
zero-padded forward vectors — not by the conventional reverse-lex on reversed
vectors. -/
theorem c8_gradedrevlex_tiebreak (a b : Monomial)
    (hwa : Monomial.WF a) (hwb : Monomial.WF b) :
    gradedRevLexOrd a b = true ↔
      (a.totalDegree < b.totalDegree ∨
        (a.totalDegree = b.totalDegree ∧
          lexLtN (padTo b.degrees (max a.degrees.length b.degrees.length))
            (padTo a.degrees (max a.degrees.length b.degrees.length)) = true)) := by
  unfold gradedRevLexOrd
  by_cases heq : a.totalDegree = b.totalDegree
  · rw [if_pos heq]
    unfold revLexOrd padTo
    rw [lexLtN_pad b.degrees a.degrees _ _ hwb.1 hwa.1 (by omega)]
    constructor
    · intro h
      exact Or.inr ⟨heq, h⟩
    · rintro (h | ⟨_, h⟩)
      · omega
      · exact h
  · rw [if_neg heq]
    constructor
    · intro h
      exact Or.inl (by simpa using h)
    · rintro (h | ⟨h, _⟩)
      · simpa using h
      · exact absurd h heq

/-- Witness for C8: `a = x1^2`, `b = x0*x1`, equal total degree 2; the
implementation reports `a` below `b` because `[1,1] <_lex [0,2]`. -/
theorem c8_gradedrevlex_tiebreak_witness :
    (Monomial.WF (mkMono [0, 2]) ∧ Monomial.WF (mkMono [1, 1])) ∧
    (gradedRevLexOrd (mkMono [0, 2]) (mkMono [1, 1]) = true ↔
      ((mkMono [0, 2]).totalDegree < (mkMono [1, 1]).totalDegree ∨
        ((mkMono [0, 2]).totalDegree = (mkMono [1, 1]).totalDegree ∧
          lexLtN (padTo (mkMono [1, 1]).degrees
              (max (mkMono [0, 2]).degrees.length (mkMono [1, 1]).degrees.length))
            (padTo (mkMono [0, 2]).degrees
              (max (mkMono [0, 2]).degrees.length (mkMono [1, 1]).degrees.length)) = true))) :=
  ⟨⟨by decide, by decide⟩,
    c8_gradedrevlex_tiebreak (mkMono [0, 2]) (mkMono [1, 1]) (by decide) (by decide)⟩

/-- C9: for all representable `int64_t` values, `DoesMultiplicationOverflow`
answers exactly whether the mathematical product leaves `[kMin, kMax]`; in
particular it is false whenever either operand is zero. -/
theorem c9_mul_overflow_exact (a b : ℤ)
    (ha1 : kMin64 ≤ a) (ha2 : a ≤ kMax64) (hb1 : kMin64 ≤ b) (hb2 : b ≤ kMax64) :
    (doesMulOverflow a b = true ↔ (a * b < kMin64 ∨ kMax64 < a * b)) ∧
    ((a = 0 ∨ b = 0) → doesMulOverflow a b = false) := by
  constructor
  case right =>
    intro h
    unfold doesMulOverflow
    rw [if_pos h]
  case left =>
    unfold doesMulOverflow
    have hoff : ¬ (0 < kMax64 + kMin64) := by norm_num [kMax64, kMin64]
    have hoff' : kMax64 + kMin64 < 0 := by norm_num [kMax64, kMin64]
    by_cases hz : a = 0 ∨ b = 0
    · rw [if_pos hz]
      have : a * b = 0 := by rcases hz with h | h <;> simp [h]
      rw [this]
      norm_num [kMax64, kMin64]
    · rw [if_neg hz]
      rw [if_neg (fun h => hoff h.1), if_neg (fun h => hoff h.1)]
      push_neg at hz
      obtain ⟨haz, hbz⟩ := hz
      by_cases hb1' : b = -1
      · rw [if_pos ⟨hoff', hb1'⟩]
        subst hb1'
        norm_num [kMax64, kMin64] at *
        constructor
        · intro h; omega
        · intro h; omega
      · rw [if_neg (fun h => hb1' h.2)]
        by_cases ha1' : a = -1
        · rw [if_pos ⟨hoff', ha1'⟩]
          subst ha1'
          norm_num [kMax64, kMin64] at *
          constructor
          · intro h; omega
          · intro h; omega
        · rw [if_neg (fun h => ha1' h.2)]
          have hkmaxnn : (0 : ℤ) ≤ kMax64 := by norm_num [kMax64]
          have hkminn : kMin64 < 0 := by norm_num [kMin64]
          by_cases hneg : a < 0
          · rw [if_pos hneg]
            by_cases hbneg : b < 0
            · -- a < 0, b < 0 (and b ≤ -2): product positive, compare with kMax
              rw [if_pos hbneg]
              have hb2' : b ≤ -2 := by omega
              have hbpos : 0 < -b := by omega
              have htd : Int.tdiv kMax64 b = -(kMax64 / (-b)) := by
                rw [show b = -(-b) from by ring, Int.tdiv_neg,
                  Int.tdiv_eq_ediv hkmaxnn (by omega)]
                simp
              have hprod : 0 < a * b := mul_pos_of_neg_of_neg hneg hbneg
              have hiff : a < Int.tdiv kMax64 b ↔ kMax64 < a * b := by
                rw [htd]
                constructor
                · intro h
                  have h2 : kMax64 / (-b) < -a := by omega
                  have := (Int.ediv_lt_iff_lt_mul hbpos).mp h2
                  nlinarith
                · intro h
                  have h2 : kMax64 < (-a) * (-b) := by nlinarith
                  have := (Int.ediv_lt_iff_lt_mul hbpos).mpr h2
                  omega
              simp only [decide_eq_true_eq]
              rw [hiff]
              constructor
              · intro h; exact Or.inr h
              · rintro (h | h)
                · omega
                · exact h
            · -- a < 0, b > 0: product negative, compare with kMin
              rw [if_neg hbneg]
              have hbpos : 0 < b := by omega
              have htd : Int.tdiv kMin64 b = -((-kMin64) / b) := by
                have h1 : Int.tdiv kMin64 b = -(Int.tdiv (-kMin64) b) := by
                  have := Int.neg_tdiv (-kMin64) b
                  simpa using this
                rw [h1, Int.tdiv_eq_ediv (by norm_num [kMin64]) (by omega)]
              have hprod : a * b < 0 := mul_neg_of_neg_of_pos hneg hbpos
              have hiff : a < Int.tdiv kMin64 b ↔ a * b < kMin64 := by
                rw [htd]
                constructor
                · intro h
                  have h2 : (-kMin64) / b < -a := by omega
                  have := (Int.ediv_lt_iff_lt_mul hbpos).mp h2
                  nlinarith
                · intro h
                  have h2 : -kMin64 < (-a) * b := by nlinarith
                  have := (Int.ediv_lt_iff_lt_mul hbpos).mpr h2
                  omega
              simp only [decide_eq_true_eq]
              rw [hiff]
              constructor
              · intro h; exact Or.inl h
              · rintro (h | h)
                · exact h
                · omega
          · rw [if_neg hneg]
            have hapos : 0 < a := by omega
            by_cases hbneg : b < 0
            · -- a > 0, b < 0 (and b ≤ -2): product negative, compare with kMin
              rw [if_pos hbneg]
              have hb2' : b ≤ -2 := by omega
              have hbpos : 0 < -b := by omega
              have htd : Int.tdiv kMin64 b = (-kMin64) / (-b) := by
                rw [show b = -(-b) from by ring, Int.tdiv_neg,
                  show kMin64 = -(-kMin64) from by ring, Int.neg_tdiv,
                  Int.tdiv_eq_ediv (by omega) (by omega)]
                ring_nf
              have hprod : a * b < 0 := mul_neg_of_pos_of_neg hapos hbneg
              have hiff : Int.tdiv kMin64 b < a ↔ a * b < kMin64 := by
                rw [htd]
                constructor
                · intro h
                  have := (Int.ediv_lt_iff_lt_mul hbpos).mp h
                  nlinarith
                · intro h
                  have h2 : -kMin64 < a * (-b) := by nlinarith
                  exact (Int.ediv_lt_iff_lt_mul hbpos).mpr h2
              simp only [decide_eq_true_eq]
              rw [hiff]
              constructor
              · intro h; exact Or.inl h
              · rintro (h | h)
                · exact h
                · omega
            · -- a > 0, b > 0: product positive, compare with kMax
              rw [if_neg hbneg]
              have hbpos : 0 < b := by omega
              have htd : Int.tdiv kMax64 b = kMax64 / b :=
                Int.tdiv_eq_ediv hkmaxnn (by omega)
              have hprod : 0 < a * b := mul_pos hapos hbpos
              have hiff : Int.tdiv kMax64 b < a ↔ kMax64 < a * b := by
                rw [htd]
                exact Int.ediv_lt_iff_lt_mul hbpos
              simp only [decide_eq_true_eq]
              rw [hiff]
              constructor
              · intro h; exact Or.inr h
              · rintro (h | h)
                · omega
                · exact h

/-- Witness for C9: `2 * 2^62` overflows, and the theorem applies at
`a = 2, b = 2^62`. -/
theorem c9_mul_overflow_exact_witness :
    (kMin64 ≤ 2 ∧ (2 : ℤ) ≤ kMax64 ∧ kMin64 ≤ (2 : ℤ) ^ 62 ∧ (2 : ℤ) ^ 62 ≤ kMax64) ∧
    ((doesMulOverflow 2 (2 ^ 62) = true ↔
        ((2 : ℤ) * 2 ^ 62 < kMin64 ∨ kMax64 < 2 * 2 ^ 62)) ∧
      (((2 : ℤ) = 0 ∨ (2 : ℤ) ^ 62 = 0) → doesMulOverflow 2 (2 ^ 62) = false)) :=
  ⟨⟨by norm_num [kMin64, kMax64], by norm_num [kMax64], by norm_num [kMin64],
      by norm_num [kMax64]⟩,
    c9_mul_overflow_exact 2 (2 ^ 62) (by norm_num [kMin64]) (by norm_num [kMax64])
      (by norm_num [kMin64]) (by norm_num [kMax64])⟩

/-- C6: every `Rational` value produced by the public operations — construction
from an integer or from a pair with nonzero denominator, `+`, `-`, `*`, `/`,
unary minus, `Invert` — satisfies the class invariant: positive denominator,
numerator and denominator coprime, and the zero value represented exactly as
`(0, 1)` (absent integer overflow, the operands of an operation themselves
satisfying the invariant). -/
theorem c6_rational_invariants :
    (∀ n : ℤ, Rational.Inv (Rational.ofInt n) ∧
      ((Rational.ofInt n).num = 0 → Rational.ofInt n = Rational.rzero)) ∧
    (∀ n d : ℤ, d ≠ 0 → ∃ r, Rational.build n d = .ok r ∧ Rational.Inv r ∧
      (r.num = 0 → r = Rational.rzero)) ∧
    (∀ a b : Rational, Rational.Inv a → Rational.Inv b →
      Rational.Inv (Rational.add a b) ∧
      ((Rational.add a b).num = 0 → Rational.add a b = Rational.rzero)) ∧
    (∀ a b : Rational, Rational.Inv a → Rational.Inv b →
      Rational.Inv (Rational.sub a b) ∧
      ((Rational.sub a b).num = 0 → Rational.sub a b = Rational.rzero)) ∧
    (∀ a b : Rational, Rational.Inv a → Rational.Inv b →
      Rational.Inv (Rational.mul a b) ∧
      ((Rational.mul a b).num = 0 → Rational.mul a b = Rational.rzero)) ∧
    (∀ a b : Rational, Rational.Inv a → Rational.Inv b → b.num ≠ 0 →
      ∃ c, Rational.div a b = .ok c ∧ Rational.Inv c ∧
        (c.num = 0 → c = Rational.rzero)) ∧
    (∀ a : Rational, Rational.Inv a →
      Rational.Inv (Rational.neg a) ∧
      ((Rational.neg a).num = 0 → Rational.neg a = Rational.rzero)) ∧
    (∀ a : Rational, Rational.Inv a → a.num ≠ 0 →
      ∃ c, Rational.invert a = .ok c ∧ Rational.Inv c ∧
        (c.num = 0 → c = Rational.rzero)) := by
  refine ⟨?_, ?_, ?_, ?_, ?_, ?_, ?_, ?_⟩
  · intro n
    have h := Rational.inv_ofInt n
    exact ⟨h, fun hz => Rational.Inv.zero_canonical h hz⟩
  · intro n d hd
    refine ⟨Rational.reduce ⟨n, d⟩, ?_, ?_, ?_⟩
    · unfold Rational.build
      rw [if_neg hd]
    · exact (Rational.reduce_spec n d hd).1
    · exact fun hz => Rational.Inv.zero_canonical (Rational.reduce_spec n d hd).1 hz
  · intro a b ha hb
    have h := (Rational.add_spec a b ha.1 hb.1).1
    exact ⟨h, fun hz => Rational.Inv.zero_canonical h hz⟩
  · intro a b ha hb
    have h := (Rational.sub_spec a b ha.1 hb.1).1
    exact ⟨h, fun hz => Rational.Inv.zero_canonical h hz⟩
  · intro a b ha hb
    have h := (Rational.mul_spec a b ha.1.ne' hb.1.ne').1
    exact ⟨h, fun hz => Rational.Inv.zero_canonical h hz⟩
  · intro a b ha hb hbn
    obtain ⟨c, hc, hinv, _⟩ := Rational.div_spec a b ha.1.ne' hb.1.ne' hbn
    exact ⟨c, hc, hinv, fun hz => Rational.Inv.zero_canonical hinv hz⟩
  · intro a ha
    have h := (Rational.neg_spec a ha).1
    exact ⟨h, fun hz => Rational.Inv.zero_canonical h hz⟩
  · intro a ha han
    obtain ⟨c, hc, hinv, _⟩ := Rational.invert_spec a ha.1.ne' han
    exact ⟨c, hc, hinv, fun hz => Rational.Inv.zero_canonical hinv hz⟩

/-- Witness for C6: the `+` conjunct applied at `1/2 + 1/3` (whose operands
satisfy the invariant), together with the discharged hypotheses. -/
theorem c6_rational_invariants_witness :
    (Rational.Inv ⟨1, 2⟩ ∧ Rational.Inv ⟨1, 3⟩) ∧
    (Rational.Inv (Rational.add ⟨1, 2⟩ ⟨1, 3⟩) ∧
      ((Rational.add ⟨1, 2⟩ ⟨1, 3⟩).num = 0 →
        Rational.add ⟨1, 2⟩ ⟨1, 3⟩ = Rational.rzero)) :=
  ⟨⟨by decide, by decide⟩,
    c6_rational_invariants.2.2.1 ⟨1, 2⟩ ⟨1, 3⟩ (by decide) (by decide)⟩

theorem coeffAt_nil (d : List ℕ) : coeffAt [] d = 0 := rfl

theorem coeffAt_cons (k : Monomial) (v : Rational) (p : Poly) (d : List ℕ) :
    coeffAt ((k, v) :: p) d =
      (if k.degrees = d then Rational.toQ v else 0) + coeffAt p d := by
  unfold coeffAt
  by_cases h : k.degrees = d
  · rw [if_pos h, List.filter_cons_of_pos (by simpa using h)]
    simp
  · rw [if_neg h, List.filter_cons_of_neg (by simpa using h)]
    simp

theorem coeffAt_cons' (t : Monomial × Rational) (p : Poly) (d : List ℕ) :
    coeffAt (t :: p) d =
      (if t.1.degrees = d then Rational.toQ t.2 else 0) + coeffAt p d := by
  obtain ⟨k, v⟩ := t
  exact coeffAt_cons k v p d

/-- `Rational::operator<` agrees with the order of the denoted rationals, for
positive denominators. -/
theorem blt_iff_toQ {a b : Rational} (ha : 0 < a.den) (hb : 0 < b.den) :
    Rational.blt a b = true ↔ Rational.toQ a < Rational.toQ b := by
  obtain ⟨hl, h1, h2, hv1, hv2, hu, hv⟩ := Rational.ilcm_facts a.den b.den ha hb
  unfold Rational.blt
  rw [h1, h2]
  have hgne : Int.gcd a.den b.den ≠ 0 := by
    simp [Int.gcd_eq_zero_iff]
    omega
  have hg0 : 0 < (Rational.igcd a.den b.den : ℤ) := by
    unfold Rational.igcd
    exact_mod_cast Nat.pos_of_ne_zero hgne
  have hmulx : a.den / Rational.igcd a.den b.den * Rational.igcd a.den b.den = a.den :=
    Int.ediv_mul_cancel (Rational.igcd_dvd_left _ _)
  have hmuly : b.den / Rational.igcd a.den b.den * Rational.igcd a.den b.den = b.den :=
    Int.ediv_mul_cancel (Rational.igcd_dvd_right _ _)
  have hZ : a.num * (b.den / Rational.igcd a.den b.den) <
      b.num * (a.den / Rational.igcd a.den b.den) ↔ a.num * b.den < b.num * a.den := by
    constructor
    · intro h
      have := mul_lt_mul_of_pos_right h hg0
      calc a.num * b.den
          = a.num * (b.den / Rational.igcd a.den b.den) * Rational.igcd a.den b.den := by
            rw [mul_assoc, hmuly]
        _ < b.num * (a.den / Rational.igcd a.den b.den) * Rational.igcd a.den b.den := this
        _ = b.num * a.den := by rw [mul_assoc, hmulx]
    · intro h
      have h' : a.num * (b.den / Rational.igcd a.den b.den) * Rational.igcd a.den b.den <
          b.num * (a.den / Rational.igcd a.den b.den) * Rational.igcd a.den b.den := by
        rw [mul_assoc, hmuly, mul_assoc, hmulx]
        exact h
      exact lt_of_mul_lt_mul_right h' (by omega)
  have hQ : Rational.toQ a < Rational.toQ b ↔ a.num * b.den < b.num * a.den := by
    unfold Rational.toQ
    rw [div_lt_div_iff (by exact_mod_cast ha) (by exact_mod_cast hb)]
    constructor
    · intro h; exact_mod_cast h
    · intro h; exact_mod_cast h
  rw [hQ]
  simp only [decide_eq_true_eq]
  exact hZ

theorem lexLtN_antisymm : ∀ {x y : List ℕ}, lexLtN x y = false → lexLtN y x = false → x = y := by
  intro x
  induction x with
  | nil =>
    intro y h1 _
    cases y with
    | nil => rfl
    | cons c ys => simp [lexLtN, listLtBy] at h1
  | cons a xs ih =>
    intro y h1 h2
    cases y with
    | nil => simp [lexLtN, listLtBy] at h2
    | cons c ys =>
      unfold lexLtN listLtBy at h1 h2
      by_cases hac : a < c
      · rw [if_pos (by simpa using hac)] at h1
        simp at h1
      · by_cases hca : c < a
        · rw [if_pos (by simpa using hca)] at h2
          simp at h2
        · have ha : a = c := by omega
          rw [if_neg (by simpa using hac), if_neg (by simpa using hca)] at h1
          rw [if_neg (by simpa using hca), if_neg (by simpa using hac)] at h2
          rw [ha, ih h1 h2]

theorem listLtBy_equiv {α : Type} (lt : α → α → Bool) :
    ∀ (p q : List α), listLtBy lt p q = false → listLtBy lt q p = false →
      List.Forall₂ (fun x y => lt x y = false ∧ lt y x = false) p q := by
  intro p
  induction p with
  | nil =>
    intro q h1 _
    cases q with
    | nil => exact List.Forall₂.nil
    | cons b bs => simp [listLtBy] at h1
  | cons a as ih =>
    intro q h1 h2
    cases q with
    | nil => simp [listLtBy] at h2
    | cons b bs =>
      unfold listLtBy at h1 h2
      by_cases hab : lt a b = true
      · rw [if_pos hab] at h1; simp at h1
      · by_cases hba : lt b a = true
        · rw [if_pos hba] at h2; simp at h2
        · rw [if_neg hab, if_neg hba] at h1
          rw [if_neg hba, if_neg hab] at h2
          exact List.Forall₂.cons
            ⟨Bool.eq_false_iff.mpr hab, Bool.eq_false_iff.mpr hba⟩ (ih bs h1 h2)

theorem pairLt_equiv {x y : Monomial × Rational}
    (h1 : pairLt x y = false) (h2 : pairLt y x = false) :
    x.1.degrees = y.1.degrees ∧
      Rational.blt x.2 y.2 = false ∧ Rational.blt y.2 x.2 = false := by
  unfold pairLt at h1 h2
  by_cases hm1 : monoLtSpec x.1 y.1 = true
  · rw [if_pos hm1] at h1; simp at h1
  · by_cases hm2 : monoLtSpec y.1 x.1 = true
    · rw [if_pos hm2] at h2; simp at h2
    · rw [if_neg hm1, if_neg hm2] at h1
      rw [if_neg hm2, if_neg hm1] at h2
      refine ⟨?_, h1, h2⟩
      exact lexLtN_antisymm (Bool.eq_false_iff.mpr hm1) (Bool.eq_false_iff.mpr hm2)

theorem forall2_equiv_coeffAt :
    ∀ {p q : Poly},
      List.Forall₂ (fun x y => pairLt x y = false ∧ pairLt y x = false) p q →
      (∀ u ∈ p, Rational.Inv u.2) → (∀ u ∈ q, Rational.Inv u.2) →
      ∀ d, coeffAt p d = coeffAt q d := by
  intro p q hfa
  induction hfa with
  | nil => intro _ _ d; rfl
  | @cons x y xs ys hxy htail ih =>
    intro hp hq d
    obtain ⟨hdeg, hb1, hb2⟩ := pairLt_equiv hxy.1 hxy.2
    have hix : Rational.Inv x.2 := hp x (by simp)
    have hiy : Rational.Inv y.2 := hq y (by simp)
    have htoQ : Rational.toQ x.2 = Rational.toQ y.2 := by
      have l1 : ¬(Rational.toQ x.2 < Rational.toQ y.2) := by
        rw [← blt_iff_toQ hix.1 hiy.1]
        simp [hb1]
      have l2 : ¬(Rational.toQ y.2 < Rational.toQ x.2) := by
        rw [← blt_iff_toQ hiy.1 hix.1]
        simp [hb2]
      linarith
    have hxpair : x = (x.1, x.2) := rfl
    have hypair : y = (y.1, y.2) := rfl
    rw [hxpair, hypair, coeffAt_cons, coeffAt_cons]
    rw [hdeg, htoQ, ih (fun u hu => hp u (by simp [hu])) (fun u hu => hq u (by simp [hu]))]

/-- `Less`-equivalent polynomials with invariant values carry the same
coefficient function. -/
theorem polyLess_equiv_coeffAt {p q : Poly}
    (hp : ∀ u ∈ p, Rational.Inv u.2) (hq : ∀ u ∈ q, Rational.Inv u.2)
    (h1 : polyLess p q = false) (h2 : polyLess q p = false) :
    ∀ d, coeffAt p d = coeffAt q d :=
  forall2_equiv_coeffAt (listLtBy_equiv pairLt p q h1 h2) hp hq

theorem setInsert_mem_of_mem {s : List Poly} {q : Poly} (p : Poly) (h : q ∈ s) :
    q ∈ setInsert s p := by
  induction s with
  | nil => simp at h
  | cons r rest ih =>
    unfold setInsert
    rcases List.mem_cons.mp h with h0 | h0
    · subst h0
      by_cases h1 : polyLess q p = true
      · rw [if_pos h1]; simp
      · rw [if_neg h1]
        by_cases h2 : polyLess p q = true
        · rw [if_pos h2]; simp
        · rw [if_neg h2]; simp
    · by_cases h1 : polyLess r p = true
      · rw [if_pos h1]
        exact List.mem_cons.mpr (Or.inr (ih h0))
      · rw [if_neg h1]
        by_cases h2 : polyLess p r = true
        · rw [if_pos h2]; simp [h0]
        · rw [if_neg h2]; simp [h0]

theorem setInsert_subset {s : List Poly} {p q : Poly} (h : q ∈ setInsert s p) :
    q = p ∨ q ∈ s := by
  induction s with
  | nil => simpa [setInsert] using h
  | cons r rest ih =>
    unfold setInsert at h
    by_cases h1 : polyLess r p = true
    · rw [if_pos h1] at h
      rcases List.mem_cons.mp h with h0 | h0
      · exact Or.inr (by simp [h0])
      · rcases ih h0 with h2 | h2
        · exact Or.inl h2
        · exact Or.inr (by simp [h2])
    · rw [if_neg h1] at h
      by_cases h2 : polyLess p r = true
      · rw [if_pos h2] at h
        rcases List.mem_cons.mp h with h0 | h0
        · exact Or.inl h0
        · exact Or.inr h0
      · rw [if_neg h2] at h
        exact Or.inr h

/-- Inserting `p` always leaves the set with an element carrying `p`'s
coefficient function: either `p` itself, or — when the hinted insert is
dropped — the `Less`-equivalent element already present. -/
theorem setInsert_coeffAt {s : List Poly} {p : Poly}
    (hp : ∀ u ∈ p, Rational.Inv u.2)
    (hs : ∀ r ∈ s, ∀ u ∈ r, Rational.Inv u.2) :
    ∃ q ∈ setInsert s p, ∀ d, coeffAt q d = coeffAt p d := by
  induction s with
  | nil => exact ⟨p, by simp [setInsert], fun d => rfl⟩
  | cons r rest ih =>
    unfold setInsert
    by_cases h1 : polyLess r p = true
    · rw [if_pos h1]
      obtain ⟨q, hq, heq⟩ := ih (fun r' hr' => hs r' (by simp [hr']))
      exact ⟨q, by simp [hq], heq⟩
    · rw [if_neg h1]
      by_cases h2 : polyLess p r = true
      · rw [if_pos h2]
        exact ⟨p, by simp, fun d => rfl⟩
      · rw [if_neg h2]
        refine ⟨r, by simp, ?_⟩
        exact polyLess_equiv_coeffAt (hs r (by simp)) hp
          (Bool.eq_false_iff.mpr h1) (Bool.eq_false_iff.mpr h2)

theorem addTerm_mem (ord : Monomial → Monomial → Bool) :
    ∀ (p : Poly) (t u : Monomial × Rational), u ∈ addTerm ord p t →
      u ∈ p ∨ (u.1 = t.1 ∧ (u.2 = t.2 ∨ ∃ v, (u.1, v) ∈ p ∧ u.2 = Rational.add v t.2)) := by
  intro p
  induction p with
  | nil =>
    intro t u hu
    simp [addTerm] at hu
    subst hu
    exact Or.inr ⟨rfl, Or.inl rfl⟩
  | cons kv rest ih =>
    obtain ⟨k, v⟩ := kv
    intro t u hu
    unfold addTerm at hu
    by_cases h1 : ord k t.1 = true
    · rw [if_pos h1] at hu
      rcases List.mem_cons.mp hu with h0 | h0
      · exact Or.inl (by simp [h0])
      · rcases ih t u h0 with h2 | ⟨hk, h2⟩
        · exact Or.inl (by simp [h2])
        · refine Or.inr ⟨hk, ?_⟩
          rcases h2 with h2 | ⟨w, hw, h2⟩
          · exact Or.inl h2
          · exact Or.inr ⟨w, by simp [hw], h2⟩
    · rw [if_neg h1] at hu
      by_cases h2 : k = t.1
      · rw [if_pos h2] at hu
        by_cases h3 : Rational.add v t.2 = Rational.rzero
        · rw [if_pos h3] at hu
          exact Or.inl (by simp [hu])
        · rw [if_neg h3] at hu
          rcases List.mem_cons.mp hu with h0 | h0
          · refine Or.inr ⟨by rw [h0, ← h2], Or.inr ⟨v, ?_, by rw [h0]⟩⟩
            rw [h0]
            simp [← h2]
          · exact Or.inl (by simp [h0])
      · rw [if_neg h2] at hu
        by_cases h3 : ord t.1 k = true
        · rw [if_pos h3] at hu
          rcases List.mem_cons.mp hu with h0 | h0
          · exact Or.inr ⟨by rw [h0], Or.inl (by rw [h0])⟩
          · exact Or.inl h0
        · rw [if_neg h3] at hu
          exact Or.inl hu

theorem addTerm_inv {ord : Monomial → Monomial → Bool} {p : Poly}
    {t : Monomial × Rational} (hp : ∀ u ∈ p, Rational.Inv u.2)
    (ht : Rational.Inv t.2) :
    ∀ u ∈ addTerm ord p t, Rational.Inv u.2 := by
  intro u hu
  rcases addTerm_mem ord p t u hu with h | ⟨_, h⟩
  · exact hp u h
  · rcases h with h | ⟨v, hv, h⟩
    · rw [h]; exact ht
    · rw [h]; exact (Rational.add_spec v t.2 (hp _ hv).1 ht.1).1

theorem addTerm_keycoeff {ord : Monomial → Monomial → Bool} {p : Poly}
    {t : Monomial × Rational} (hp : ∀ u ∈ p, u.1.coeff = Rational.rone)
    (ht : t.1.coeff = Rational.rone) :
    ∀ u ∈ addTerm ord p t, u.1.coeff = Rational.rone := by
  intro u hu
  rcases addTerm_mem ord p t u hu with h | ⟨hk, _⟩
  · exact hp u h
  · rw [hk]; exact ht

/-- The coefficient-function effect of `AddTerm_` under Lex, provided any key
with the incoming degrees is the incoming key itself (so the silent drop of the
hinted insert cannot fire). -/
theorem addTerm_lex_coeffAt :
    ∀ (p : Poly) (t : Monomial × Rational),
      (∀ u ∈ p, Rational.Inv u.2) → Rational.Inv t.2 →
      (∀ u ∈ p, u.1.degrees = t.1.degrees → u.1 = t.1) →
      ∀ d, coeffAt (addTerm lexOrd p t) d =
        coeffAt p d + (if t.1.degrees = d then Rational.toQ t.2 else 0) := by
  intro p
  induction p with
  | nil =>
    intro t _ _ _ d
    show coeffAt [t] d = _
    rw [coeffAt_cons', coeffAt_nil]
    ring
  | cons kv rest ih =>
    obtain ⟨k, v⟩ := kv
    intro t hp ht hkey d
    unfold addTerm
    by_cases h1 : lexOrd k t.1 = true
    · rw [if_pos h1, coeffAt_cons, coeffAt_cons,
        ih t (fun u hu => hp u (by simp [hu])) ht (fun u hu => hkey u (by simp [hu])) d]
      ring
    · rw [if_neg h1]
      by_cases h2 : k = t.1
      · subst h2
        rw [if_pos rfl]
        have hv : Rational.Inv v := hp (t.1, v) (by simp)
        have hadd := (Rational.add_spec v t.2 hv.1 ht.1).2
        by_cases h3 : Rational.add v t.2 = Rational.rzero
        · rw [if_pos h3, coeffAt_cons]
          have hz : Rational.toQ v + Rational.toQ t.2 = 0 := by
            have : Rational.toQ (Rational.add v t.2) = 0 := by
              rw [h3, Rational.toQ_rzero]
            rw [hadd] at this
            linarith
          by_cases hd : t.1.degrees = d
          · rw [if_pos hd, if_pos hd]
            linarith
          · rw [if_neg hd, if_neg hd]
            ring
        · rw [if_neg h3, coeffAt_cons, coeffAt_cons]
          by_cases hd : t.1.degrees = d
          · rw [if_pos hd, if_pos hd, if_pos hd, hadd]
            ring
          · rw [if_neg hd, if_neg hd, if_neg hd]
            ring
      · rw [if_neg h2]
        by_cases h3 : lexOrd t.1 k = true
        · rw [if_pos h3]
          rw [coeffAt_cons', coeffAt_cons]
          ring
        · exfalso
          have hdeg : k.degrees = t.1.degrees :=
            lexLtN_antisymm (Bool.eq_false_iff.mpr h1) (Bool.eq_false_iff.mpr h3)
          exact h2 (hkey (k, v) (by simp) hdeg)

theorem polyAdd_single (ord : Monomial → Monomial → Bool) (p : Poly)
    (t : Monomial × Rational) : polyAdd ord p [t] = addTerm ord p t := rfl

theorem mod_small (x m : ℕ) (hm : 0 < m) (h : x < 2 * m) :
    x % m = if x < m then x else x - m := by
  by_cases h1 : x < m
  · rw [if_pos h1, Nat.mod_eq_of_lt h1]
  · rw [if_neg h1]
    have h2 : m ≤ x := by omega
    rw [Nat.mod_eq_sub_mod h2, Nat.mod_eq_of_lt (by omega)]

theorem specWindow_length (i n m : ℕ) : (specWindow i n m).length = m := by
  simp [specWindow]

theorem specWindow_zero (n m : ℕ) (hnm : n ≤ m) :
    (List.range m).map (fun i => if i < n then (1 : ℕ) else 0) = specWindow 0 n m := by
  unfold specWindow
  apply List.map_congr_left
  intro j hj
  have hjm : j < m := List.mem_range.mp hj
  by_cases h : j < n
  · rw [if_pos h, if_pos ⟨j, h, by rw [Nat.zero_add, Nat.mod_eq_of_lt (by omega)]⟩]
  · rw [if_neg h, if_neg]
    rintro ⟨k, hk, hjk⟩
    rw [Nat.zero_add, Nat.mod_eq_of_lt (by omega)] at hjk
    omega

theorem range_map_lt_eq_replicate (m : ℕ) :
    (List.range m).map (fun i => if i < m then (1 : ℕ) else 0) = List.replicate m 1 := by
  apply List.ext_getElem
  · simp
  · intro j h1 h2
    have hjm : j < m := by simpa using h2
    simp [List.getElem_map, List.getElem_range, List.getElem_replicate, hjm]

theorem replicate_getLastD (m : ℕ) (hm : 1 ≤ m) :
    (List.replicate m (1 : ℕ)).getLastD 1 = 1 := by
  induction m with
  | zero => omega
  | succ k ih =>
    cases k with
    | zero => rfl
    | succ k2 =>
      rw [List.replicate_succ, List.getLastD_cons]
      exact ih (by omega)

theorem window_step_mem (n m i j : ℕ) (hn1 : 1 ≤ n) (hnm : n < m) (him : i < m)
    (hjm : j < m) :
    ((∃ k, k < n ∧ j = (i + 1 + k) % m) ↔
      (j = (i + n) % m ∨ ((∃ k, k < n ∧ j = (i + k) % m) ∧ j ≠ i))) := by
  have hm0 : 0 < m := by omega
  constructor
  · rintro ⟨k, hk, rfl⟩
    by_cases hkn : k = n - 1
    · left
      subst hkn
      congr 1
      omega
    · right
      constructor
      · exact ⟨k + 1, by omega, by congr 1; omega⟩
      · intro hcon
        have hb : i + 1 + k < 2 * m := by omega
        rw [mod_small _ _ hm0 hb] at hcon
        by_cases hc : i + 1 + k < m
        · rw [if_pos hc] at hcon; omega
        · rw [if_neg hc] at hcon; omega
  · rintro (h | ⟨⟨k, hk, rfl⟩, hne⟩)
    · exact ⟨n - 1, by omega, by rw [h]; congr 1; omega⟩
    · have hk0 : k ≠ 0 := by
        intro h0
        subst h0
        exact hne (by rw [Nat.add_zero, Nat.mod_eq_of_lt him])
      exact ⟨k - 1, by omega, by congr 1; omega⟩

theorem specWindow_step (n m i : ℕ) (hn1 : 1 ≤ n) (hnm : n < m) (him : i + 1 < m) :
    ((specWindow i n m).set i 0).set ((i + n) % m) 1 = specWindow (i + 1) n m := by
  have hm0 : 0 < m := by omega
  apply List.ext_getElem
  · simp [specWindow]
  · intro j h1 h2
    have hjm : j < m := by simpa [specWindow] using h2
    rw [List.getElem_set, List.getElem_set]
    have hl1 : j < (specWindow i n m).length := by rw [specWindow_length]; omega
    have hl2 : j < (specWindow (i + 1) n m).length := by rw [specWindow_length]; omega
    have hWl : (specWindow i n m)[j] =
        if ∃ k, k < n ∧ j = (i + k) % m then 1 else 0 := by
      simp [specWindow]
    have hWr : (specWindow (i + 1) n m)[j] =
        if ∃ k, k < n ∧ j = (i + 1 + k) % m then 1 else 0 := by
      simp [specWindow]
    rw [hWl, hWr]
    have hiff := window_step_mem n m i j hn1 hnm (by omega) hjm
    by_cases hA : ∃ k, k < n ∧ j = (i + 1 + k) % m
    · rw [if_pos hA]
      rcases hiff.mp hA with h | ⟨hw, hne⟩
      · rw [if_pos h.symm]
      · by_cases hj1 : (i + n) % m = j
        · rw [if_pos hj1]
        · rw [if_neg hj1, if_neg (fun h0 => hne h0.symm), if_pos hw]
    · rw [if_neg hA]
      have hj1 : (i + n) % m ≠ j := fun h0 => hA (hiff.mpr (Or.inl h0.symm))
      rw [if_neg hj1]
      by_cases hj2 : i = j
      · rw [if_pos hj2]
      · rw [if_neg hj2]
        rw [if_neg]
        intro hw
        exact hA (hiff.mpr (Or.inr ⟨hw, fun h0 => hj2 h0.symm⟩))

theorem ofDegrees_rone (ds : List ℕ) :
    Monomial.ofDegrees ds Rational.rone =
      ⟨Monomial.dropTrailingZeros ds, Rational.rone⟩ := by
  show (⟨Monomial.dropTrailingZeros
      (if Rational.rone = Rational.rzero then [] else ds), Rational.rone⟩ : Monomial) = _
  rw [if_neg (by decide : ¬ Rational.rone = Rational.rzero)]

theorem buildCyclePoly_eq (n m : ℕ) (hn : n ≠ m) (hnm : n ≤ m) :
    buildCyclePoly n m = (cycFoldState n m (m - 1)).2 := by
  unfold buildCyclePoly cycFoldState cycStep
  rw [if_neg hn, specWindow_zero n m hnm, ofDegrees_rone]
  rfl

theorem cycFold_spec (n m : ℕ) (hn1 : 1 ≤ n) (hnm : n < m) :
    ∀ K, K < m →
      (cycFoldState n m K).1 = specWindow K n m ∧
      (∀ d, coeffAt (cycFoldState n m K).2 d =
        ((List.range (K + 1)).map
          (fun i => if Monomial.dropTrailingZeros (specWindow i n m) = d
            then (1 : ℚ) else 0)).sum) ∧
      (∀ u ∈ (cycFoldState n m K).2, Rational.Inv u.2 ∧ u.1.coeff = Rational.rone) := by
  intro K
  induction K with
  | zero =>
    intro _
    refine ⟨rfl, ?_, ?_⟩
    · intro d
      show coeffAt [(⟨Monomial.dropTrailingZeros (specWindow 0 n m), Rational.rone⟩,
        Rational.rone)] d = _
      rw [coeffAt_cons, coeffAt_nil, show List.range 1 = [0] from rfl]
      simp [Rational.toQ_rone]
    · intro u hu
      have : u = (⟨Monomial.dropTrailingZeros (specWindow 0 n m), Rational.rone⟩,
          Rational.rone) := by simpa [cycFoldState] using hu
      rw [this]
      exact ⟨Rational.inv_rone, rfl⟩
  | succ K ih =>
    intro hK
    obtain ⟨hw, hc, hval⟩ := ih (by omega)
    have hstep : cycFoldState n m (K + 1) = cycStep n m (cycFoldState n m K) K := by
      unfold cycFoldState
      rw [List.range_succ, List.foldl_append, List.foldl_cons, List.foldl_nil]
    have ht1 : (((cycFoldState n m K).1.set K 0).set ((K + n) % m) 1) =
        specWindow (K + 1) n m := by
      rw [hw]
      exact specWindow_step n m K hn1 hnm (by omega)
    have hkey : ∀ u ∈ (cycFoldState n m K).2,
        u.1.degrees = (⟨Monomial.dropTrailingZeros (specWindow (K + 1) n m),
          Rational.rone⟩ : Monomial).degrees →
        u.1 = ⟨Monomial.dropTrailingZeros (specWindow (K + 1) n m), Rational.rone⟩ := by
      intro u hu hdeg
      have hco := (hval u hu).2
      cases hu1 : u.1 with
      | mk ds c =>
        rw [hu1] at hdeg hco
        simp only at hdeg hco
        rw [hdeg, hco]
    rw [hstep]
    unfold cycStep polyOfMonomial
    simp only
    rw [ht1, polyAdd_single, ofDegrees_rone]
    refine ⟨rfl, ?_, ?_⟩
    · intro d
      rw [addTerm_lex_coeffAt _ _ (fun u hu => (hval u hu).1) Rational.inv_rone hkey d,
        hc d]
      rw [List.range_succ (n := K + 1)]
      rw [List.map_append, List.sum_append]
      simp [Rational.toQ_rone]
    · intro u hu
      exact ⟨addTerm_inv (fun v hv => (hval v hv).1) Rational.inv_rone u hu,
        addTerm_keycoeff (fun v hv => (hval v hv).2) rfl u hu⟩

theorem buildCyclePoly_spec (n m : ℕ) (hn1 : 1 ≤ n) (hnm : n < m) :
    (∀ d, coeffAt (buildCyclePoly n m) d = specCycPoly n m d) ∧
    (∀ u ∈ buildCyclePoly n m, Rational.Inv u.2) := by
  rw [buildCyclePoly_eq n m (by omega) (by omega)]
  obtain ⟨_, hc, hval⟩ := cycFold_spec n m hn1 hnm (m - 1) (by omega)
  refine ⟨?_, fun u hu => (hval u hu).1⟩
  intro d
  rw [hc d]
  unfold specCycPoly
  rw [show m - 1 + 1 = m by omega]

theorem buildCyclePoly_diag (m : ℕ) (hm : 1 ≤ m) :
    buildCyclePoly m m = [(⟨List.replicate m 1, Rational.rone⟩, Rational.rone)] := by
  unfold buildCyclePoly
  rw [if_pos rfl, range_map_lt_eq_replicate, ofDegrees_rone,
    Monomial.dtz_eq_self (by rw [replicate_getLastD m hm]; omega)]
  rfl

/-- The `n = m` element of `BuildCycleSet`: `x_0 ... x_(m-1) - 1`, whose
constant term is keyed by the zero-coefficient default monomial. -/
theorem buildLast_spec (m : ℕ) (hm : 1 ≤ m) :
    (∀ d, coeffAt (polyAdd lexOrd (buildCyclePoly m m)
        (polyOfConst (Rational.ofInt (-1)))) d = specLastPoly m d) ∧
    (∀ u ∈ polyAdd lexOrd (buildCyclePoly m m) (polyOfConst (Rational.ofInt (-1))),
      Rational.Inv u.2) := by
  rw [buildCyclePoly_diag m hm]
  have hconst : polyOfConst (Rational.ofInt (-1)) =
      [(Monomial.mdefault, Rational.ofInt (-1))] := by
    unfold polyOfConst
    rw [if_neg (by decide)]
  rw [hconst, polyAdd_single]
  obtain ⟨j, rfl⟩ : ∃ j, m = j + 1 := ⟨m - 1, by omega⟩
  have hres : addTerm lexOrd
      [(⟨List.replicate (j + 1) 1, Rational.rone⟩, Rational.rone)]
      (Monomial.mdefault, Rational.ofInt (-1)) =
      [(Monomial.mdefault, Rational.ofInt (-1)),
       (⟨List.replicate (j + 1) 1, Rational.rone⟩, Rational.rone)] := by
    rw [List.replicate_succ]
    unfold addTerm
    have b1 : lexOrd ⟨1 :: List.replicate j 1, Rational.rone⟩
        (Monomial.mdefault, Rational.ofInt (-1)).1 = false := rfl
    have b2 : (⟨1 :: List.replicate j 1, Rational.rone⟩ : Monomial) ≠
        (Monomial.mdefault, Rational.ofInt (-1)).1 := by
      simp [Monomial.mdefault]
    have b3 : lexOrd (Monomial.mdefault, Rational.ofInt (-1)).1
        ⟨1 :: List.replicate j 1, Rational.rone⟩ = true := rfl
    rw [if_neg (by simp [b1]), if_neg b2, if_pos b3]
  rw [hres]
  constructor
  · intro d
    rw [coeffAt_cons, coeffAt_cons, coeffAt_nil]
    unfold specLastPoly
    have h1 : (Monomial.mdefault).degrees = [] := rfl
    have h2 : Rational.toQ (Rational.ofInt (-1)) = -1 := by
      rw [Rational.toQ_ofInt]; norm_num
    rw [h1, h2, Rational.toQ_rone]
    ring
  · intro u hu
    rcases List.mem_cons.mp hu with h0 | h0
    · rw [h0]; exact Rational.inv_ofInt (-1)
    · have : u = (⟨List.replicate (j + 1) 1, Rational.rone⟩, Rational.rone) := by
        simpa using h0
      rw [this]
      exact Rational.inv_rone

theorem buildCycleSet_eq (m : ℕ) : buildCycleSet m = cSetFoldState m m := rfl

theorem cSetElem_spec (m k : ℕ) (hk : k < m) :
    (∀ d, coeffAt (cSetElem m k) d = specCyclic (k + 1) m d) ∧
    (∀ u ∈ cSetElem m k, Rational.Inv u.2) := by
  by_cases h : k + 1 = m
  · have h1 : cSetElem m k = polyAdd lexOrd (buildCyclePoly (k + 1) m)
        (polyOfConst (Rational.ofInt (-1))) := by
      unfold cSetElem; rw [if_pos h]
    have h2 : specCyclic (k + 1) m = specLastPoly m := by
      unfold specCyclic; rw [if_pos h]
    rw [h1, h2]
    subst h
    exact buildLast_spec (k + 1) (by omega)
  · have h1 : cSetElem m k = buildCyclePoly (k + 1) m := by
      unfold cSetElem; rw [if_neg h]
    have h2 : specCyclic (k + 1) m = specCycPoly (k + 1) m := by
      unfold specCyclic; rw [if_neg h]
    rw [h1, h2]
    exact buildCyclePoly_spec (k + 1) m (by omega) (by omega)

theorem cSetFold_spec (m : ℕ) : ∀ K, K ≤ m →
    (∀ p ∈ cSetFoldState m K,
      (∃ n, 1 ≤ n ∧ n ≤ K ∧ ∀ d, coeffAt p d = specCyclic n m d) ∧
      ∀ u ∈ p, Rational.Inv u.2) ∧
    (∀ n, 1 ≤ n → n ≤ K →
      ∃ p ∈ cSetFoldState m K, ∀ d, coeffAt p d = specCyclic n m d) := by
  intro K
  induction K with
  | zero =>
    intro _
    refine ⟨?_, ?_⟩
    · intro p hp
      simp [cSetFoldState] at hp
    · intro n hn1 hn0
      omega
  | succ K ih =>
    intro hK
    obtain ⟨hA, hB⟩ := ih (by omega)
    obtain ⟨hcoeff, hinv⟩ := cSetElem_spec m K (by omega)
    have hstep : cSetFoldState m (K + 1) =
        setInsert (cSetFoldState m K) (cSetElem m K) := by
      unfold cSetFoldState
      rw [List.range_succ, List.foldl_append, List.foldl_cons, List.foldl_nil]
      rfl
    rw [hstep]
    refine ⟨?_, ?_⟩
    · intro p hp
      rcases setInsert_subset hp with h0 | h0
      · subst h0
        exact ⟨⟨K + 1, by omega, by omega, hcoeff⟩, hinv⟩
      · obtain ⟨⟨n, hn1, hnK, hc⟩, hi⟩ := hA p h0
        exact ⟨⟨n, hn1, by omega, hc⟩, hi⟩
    · intro n hn1 hnK
      by_cases hcase : n = K + 1
      · subst hcase
        obtain ⟨q, hq, heq⟩ := setInsert_coeffAt hinv (fun r hr => (hA r hr).2)
        exact ⟨q, hq, fun d => by rw [heq d, hcoeff d]⟩
      · obtain ⟨p, hp, hc⟩ := hB n hn1 (by omega)
        exact ⟨p, setInsert_mem_of_mem _ hp, hc⟩

/-- C5: for every `m >= 1`, `BuildCycleSet(m)` returns exactly the cyclic-m
generating set. Read through the term-map denotation `coeffAt`, every element
of the returned set is one of the polynomials `p_n` with `1 <= n <= m` (for
`n < m` the n-variable rotational sum with all coefficients 1, for `n = m`
the product `x_0 * ... * x_(m-1)` minus 1), and every such `p_n` occurs in
the returned set. -/
theorem c5_build_cycle_set (m : ℕ) (hm : 1 ≤ m) :
    (∀ p ∈ buildCycleSet m,
      ∃ n, 1 ≤ n ∧ n ≤ m ∧ ∀ d, coeffAt p d = specCyclic n m d) ∧
    (∀ n, 1 ≤ n → n ≤ m →
      ∃ p ∈ buildCycleSet m, ∀ d, coeffAt p d = specCyclic n m d) := by
  rw [buildCycleSet_eq]
  obtain ⟨hA, hB⟩ := cSetFold_spec m m (le_refl m)
  exact ⟨fun p hp => (hA p hp).1, hB⟩

theorem c5_build_cycle_set_witness :
    1 ≤ 2 ∧
    ((∀ p ∈ buildCycleSet 2,
        ∃ n, 1 ≤ n ∧ n ≤ 2 ∧ ∀ d, coeffAt p d = specCyclic n 2 d) ∧
     (∀ n, 1 ≤ n → n ≤ 2 →
        ∃ p ∈ buildCycleSet 2, ∀ d, coeffAt p d = specCyclic n 2 d)) :=
  ⟨by decide, c5_build_cycle_set 2 (by decide)⟩

/-- C10: the single-argument `Polynomial(Monomial)` constructor always stores
exactly one map entry whose value is the field constant 1, whatever coefficient
is embedded in the monomial itself. -/
theorem c10_poly_of_monomial_unit_coefficient (m : Monomial) :
    (polyOfMonomial m).length = 1 ∧
    leadingTerm (polyOfMonomial m) = (m, Rational.rone) := by
  exact ⟨rfl, rfl⟩

end GB
